import Mathlib

/-!
# bldd: inventory of the dynamic libraries used by ELF executables

A shallow embedding of `bldd/main.go` and the properties of its report.

* The file system is a parameter (`FileSystem`): what `os.Open`, `elf.Open`,
  `os.Create`, a write to the created file and `filepath.Walk` answer for a
  path.  It does not change during a scan.  A write may be refused in part or
  in full; the program discards the result of every `fmt.Fprintf`.
* A Go map is a list of key/value pairs with distinct keys, kept in the order
  in which the keys were first inserted.  That order is only a representation:
  `range` over a map visits the pairs in an order chosen by the Go runtime,
  which is a parameter (`Runtime.rangeArchs`, `Runtime.rangeLibs`).
* `sort.Slice` is not stable; it is a parameter too (`Runtime.sortSlice`),
  constrained by its documented contract.
-/

namespace Bldd

/-! ## Data model -/

/-- Go `error` value that is not nil. -/
structure GoError where
  msg : String
deriving DecidableEq, Repr

structure LibraryUsage where
  Library : String
  Executables : List String
deriving DecidableEq, Repr

structure ArchitectureReport where
  Architecture : String
  Libraries : List LibraryUsage
deriving DecidableEq, Repr

structure Report where
  ScanDirectory : String
  ArchReports : List ArchitectureReport
deriving DecidableEq, Repr

/-! ## Environment -/

/-- The part of `*elf.File` the program reads: the `Machine` field of the
header (a 16-bit code) and the answer of `ImportedLibraries()`. -/
structure ElfFile where
  Machine : Nat
  ImportedLibraries : Except GoError (List String)

/-- The part of `os.FileInfo` the program reads. -/
structure FileInfo where
  IsDir : Bool
deriving DecidableEq, Repr

/-- One invocation of the `filepath.WalkFunc`: its three arguments. -/
structure WalkEntry where
  path : String
  info : FileInfo
  err : Option GoError
deriving DecidableEq, Repr

/-- The file system as the program observes it.
`walk dir` is the sequence of invocations `filepath.Walk(dir, fn)` makes for as
long as `fn` returns nil; `osOpen p` is the byte content readable after
`os.Open(p)`; `elfOpen p` is the answer of `elf.Open(p)`; `osCreate p` is the
error of `os.Create(p)`, if any; `osWrite p written data` is the number of
leading characters of `data` that reach the file created at `p` when `written`
is what it holds so far: fewer than all of them is a write error. -/
structure FileSystem where
  walk : String → List WalkEntry
  osOpen : String → Except GoError (List Nat)
  elfOpen : String → Except GoError ElfFile
  osCreate : String → Option GoError
  osWrite : String → String → String → Nat

/-! ## Go maps with string keys -/

/-- Value stored under key `k`, if any. -/
def mapGet? {V : Type} : List (String × V) → String → Option V
  | [], _ => none
  | (k', v) :: m, k => if k' = k then some v else mapGet? m k

/-- The map after `m[k] = v`. -/
def mapSet {V : Type} : List (String × V) → String → V → List (String × V)
  | [], k, v => [(k, v)]
  | (k', v') :: m, k, v => if k' = k then (k', v) :: m else (k', v') :: mapSet m k v

/-- Value of the index expression `m[k]` for a slice or map valued map: the
zero value (empty) when the key is absent. -/
def mapIndex {V : Type} (m : List (String × List V)) (k : String) : List V :=
  (mapGet? m k).getD []

/-- Type of `archMap`: `map[string]map[string][]string`. -/
abbrev LibMap := List (String × List String)

abbrev ArchMap := List (String × LibMap)

/-! ## Runtime behaviour left open by the Go specification -/

/-- Requirements of `sort.Slice` on its `less` function (irreflexive,
transitive, and with a transitive "not less"). -/
structure LessOK {α : Type} (less : α → α → Bool) : Prop where
  irrefl : ∀ a, less a a = false
  trans : ∀ a b c, less a b = true → less b c = true → less a c = true
  negTrans : ∀ a b c, less a b = false → less b c = false → less a c = false

/-- One admissible behaviour of the Go runtime and library during a scan:
the order in which `range` visits each map and the result of `sort.Slice`.
`range` visits every pair exactly once; `sort.Slice` permutes the slice so that
no element is less than one before it. -/
structure Runtime where
  rangeArchs : ArchMap → ArchMap
  rangeLibs : String → LibMap → LibMap
  sortSlice : {α : Type} → (α → α → Bool) → List α → List α
  rangeArchs_perm : ∀ m, (rangeArchs m).Perm m
  rangeLibs_perm : ∀ arch m, (rangeLibs arch m).Perm m
  sortSlice_perm : ∀ {α : Type} (less : α → α → Bool) (l : List α), (sortSlice less l).Perm l
  sortSlice_sorted : ∀ {α : Type} (less : α → α → Bool) (l : List α), LessOK less →
    (sortSlice less l).Pairwise (fun a b => less b a = false)

/-! ## The program -/

/-- `io.ReadFull(file, buf)` with `len(buf) = n`: the first `n` bytes, or an
error when fewer are available. -/
def readFull (file : List Nat) (n : Nat) : Except GoError (List Nat) :=
  if file.length < n then .error ⟨"unexpected EOF"⟩ else .ok (file.take n)

def isELF (fs : FileSystem) (filePath : String) : Bool :=
  match fs.osOpen filePath with
  | .error _ => false
  | .ok file =>
    match readFull file 4 with
    | .error _ => false
    | .ok magic =>
      magic.getD 0 0 == 0x7F && magic.getD 1 0 == 'E'.toNat &&
        magic.getD 2 0 == 'L'.toNat && magic.getD 3 0 == 'F'.toNat

/-- Machine codes of `debug/elf`. -/
def EM_386 : Nat := 3

def EM_ARM : Nat := 40

def EM_X86_64 : Nat := 62

def EM_AARCH64 : Nat := 183

/-- The pair `(string, error)` returned by the Go function; `none` is nil. -/
def getArchitecture (fs : FileSystem) (filePath : String) : String × Option GoError :=
  match fs.elfOpen filePath with
  | .error err => ("", some err)
  | .ok file =>
    if file.Machine = EM_386 then ("i386 (x86)", none)
    else if file.Machine = EM_X86_64 then ("x86-64", none)
    else if file.Machine = EM_ARM then ("armv7", none)
    else if file.Machine = EM_AARCH64 then ("aarch64", none)
    else ("", some ⟨"unsupported architecture"⟩)

/-- The statement `archMap[arch][lib] = append(archMap[arch][lib], path)`. -/
def recordLib (archMap : ArchMap) (arch lib path : String) : ArchMap :=
  mapSet archMap arch (mapSet (mapIndex archMap arch) lib (mapIndex (mapIndex archMap arch) lib ++ [path]))

/-- The function literal passed to `filepath.Walk`: the new `archMap` and the
returned error. -/
def walkFn (fs : FileSystem) (archMap : ArchMap) (path : String) (info : FileInfo)
    (err : Option GoError) : ArchMap × Option GoError :=
  match err with
  | some e => (archMap, some e)
  | none =>
    if !info.IsDir && isELF fs path then
      match getArchitecture fs path with
      | (_, some _) => (archMap, none)
      | (arch, none) =>
        match fs.elfOpen path with
        | .error _ => (archMap, none)
        | .ok file =>
          match file.ImportedLibraries with
          | .error _ => (archMap, none)
          | .ok libs =>
            let archMap := if (mapGet? archMap arch).isNone then mapSet archMap arch [] else archMap
            (libs.foldl (fun m lib => recordLib m arch lib path) archMap, none)
    else (archMap, none)

/-- `filepath.Walk` over the invocations the file system yields: the callback
runs on each in turn and the first error it returns ends the walk. -/
def filepathWalk (fn : ArchMap → String → FileInfo → Option GoError → ArchMap × Option GoError) :
    List WalkEntry → ArchMap → ArchMap × Option GoError
  | [], archMap => (archMap, none)
  | e :: rest, archMap =>
    match fn archMap e.path e.info e.err with
    | (archMap', some err) => (archMap', some err)
    | (archMap', none) => filepathWalk fn rest archMap'

/-- Comparison passed to `sort.Slice` for the libraries. -/
def lessLib (a b : LibraryUsage) : Bool :=
  decide (a.Executables.length > b.Executables.length)

/-- Lexicographic comparison of two character sequences; a proper prefix is
smaller. -/
def lexLess : List Char → List Char → Bool
  | [], [] => false
  | [], _ :: _ => true
  | _ :: _, [] => false
  | a :: as, b :: bs => if a < b then true else if b < a then false else lexLess as bs

/-- Go's `<` on strings: lexicographic on the bytes, which for UTF-8 text is
lexicographic on the code points. -/
def stringLess (a b : String) : Bool :=
  lexLess a.data b.data

/-- Comparison passed to `sort.Slice` for the architectures. -/
def lessArch (a b : ArchitectureReport) : Bool :=
  stringLess a.Architecture b.Architecture

/-- The loop `for lib, execs := range libMap` followed by the sort. -/
def buildLibraries (rt : Runtime) (arch : String) (libMap : LibMap) : List LibraryUsage :=
  rt.sortSlice lessLib
    ((rt.rangeLibs arch libMap).foldl (fun libraries p => libraries ++ [⟨p.1, p.2⟩]) [])

/-- The loop `for arch, libMap := range archMap` followed by the sort. -/
def buildArchReports (rt : Runtime) (archMap : ArchMap) : List ArchitectureReport :=
  rt.sortSlice lessArch
    ((rt.rangeArchs archMap).foldl
      (fun archReports p => archReports ++ [⟨p.1, buildLibraries rt p.1 p.2⟩]) [])

def scanDirectory (rt : Runtime) (fs : FileSystem) (dir : String) : Except GoError Report :=
  match filepathWalk (walkFn fs) (fs.walk dir) [] with
  | (_, some err) => .error err
  | (archMap, none) => .ok ⟨dir, buildArchReports rt archMap⟩

/-- The 50 characters '=' of the second format string, written in five groups
of ten. -/
def rule50 : String :=
  "==========" ++ "==========" ++ "==========" ++ "==========" ++ "=========="

/-- The content of the output file after `fmt.Fprintf(file, ...)` with the
formatted text `text`, when it held `file` before: the part of `text` the file
system accepts is appended. The count and the error that `Fprintf` returns are
discarded by the program, so the content is all that remains of the call. -/
def Fprintf (fs : FileSystem) (outputFile file text : String) : String :=
  file ++ String.mk (text.data.take (fs.osWrite outputFile file text))

/-- The text held by the output file when `generateReport` returns nil, or the
error of `os.Create`. The file is empty after `os.Create`. -/
def generateReport (fs : FileSystem) (report : Report) (outputFile : String) :
    Except GoError String :=
  match fs.osCreate outputFile with
  | some err => .error err
  | none =>
    let file := ""
    let file := Fprintf fs outputFile file
      ("Report on dynamic used libraries by ELF executables on " ++ report.ScanDirectory ++ "\n")
    let file := Fprintf fs outputFile file (rule50 ++ "\n\n")
    let file := report.ArchReports.foldl (fun file archReport =>
      let file := Fprintf fs outputFile file
        ("---------- " ++ archReport.Architecture ++ " ----------\n")
      let file := archReport.Libraries.foldl (fun file lib =>
        let file := Fprintf fs outputFile file
          (lib.Library ++ " (" ++ toString lib.Executables.length ++ " execs)\n")
        lib.Executables.foldl
          (fun file exec => Fprintf fs outputFile file ("-> " ++ exec ++ "\n")) file) file
      Fprintf fs outputFile file "\n") file
    .ok file

/-! ## Notions of the specification -/

/-- A walked entry that reaches the aggregation, with its architecture label
and imported libraries: the walk reported no error for it, it is not a
directory, it passes the magic check, its architecture is classified and its
dependency list is extracted. -/
def accepted (fs : FileSystem) (e : WalkEntry) : Option (String × List String) :=
  if e.err = none ∧ e.info.IsDir = false ∧ isELF fs e.path = true then
    match getArchitecture fs e.path, fs.elfOpen e.path with
    | (arch, none), .ok file =>
      match file.ImportedLibraries with
      | .ok libs => some (arch, libs)
      | .error _ => none
    | _, _ => none
  else none

/-- The dependency records (architecture, library, executable) of a walk, in
traversal order: one per entry of each accepted file's library list. -/
def records (fs : FileSystem) (entries : List WalkEntry) : List (String × String × String) :=
  entries.flatMap fun e =>
    match accepted fs e with
    | some (arch, libs) => libs.map fun lib => (arch, lib, e.path)
    | none => []

/-- The executables recorded for library `lib` under architecture `arch`, in
traversal order. -/
def recordedExecs (fs : FileSystem) (entries : List WalkEntry) (arch lib : String) : List String :=
  ((records fs entries).filter fun r => decide (r.1 = arch ∧ r.2.1 = lib)).map fun r => r.2.2

/-- The architecture labels of the accepted files of a walk. -/
def observedArchs (fs : FileSystem) (entries : List WalkEntry) : List String :=
  entries.filterMap fun e => (accepted fs e).map Prod.fst

/-! ## Auxiliary notions for the proofs -/

/-- The library map of one architecture after a file at `path` importing
`libs` is recorded. -/
def aggregateLibs (libMap : LibMap) (libs : List String) (path : String) : LibMap :=
  libs.foldl (fun lm lib => mapSet lm lib (mapIndex lm lib ++ [path])) libMap

/-- The map after an accepted file of architecture `arch` at `path` importing
`libs` is recorded. -/
def aggregate (archMap : ArchMap) (arch : String) (libs : List String) (path : String) : ArchMap :=
  libs.foldl (fun m lib => recordLib m arch lib path)
    (if (mapGet? archMap arch).isNone then mapSet archMap arch [] else archMap)

/-- The map after one walked entry without walk error is handled. -/
def absorb (fs : FileSystem) (archMap : ArchMap) (e : WalkEntry) : ArchMap :=
  match accepted fs e with
  | some (arch, libs) => aggregate archMap arch libs e.path
  | none => archMap

/-- The executables stored for library `lib` of architecture `arch`. -/
def execsOf (archMap : ArchMap) (arch lib : String) : List String :=
  mapIndex (mapIndex archMap arch) lib

/-- Well-formed aggregation state: both levels have distinct keys and a
library is a key exactly when executables are stored for it. -/
def WF (archMap : ArchMap) : Prop :=
  (archMap.map Prod.fst).Nodup ∧
    ∀ arch, ((mapIndex archMap arch).map Prod.fst).Nodup ∧
      ∀ lib, lib ∈ (mapIndex archMap arch).map Prod.fst ↔ execsOf archMap arch lib ≠ []

/-- Two architecture reports that differ at most in the order of libraries
with equal numbers of executables: same label, the same library entries, and
the same sequence of executable counts. -/
def sameUpToTies (a b : ArchitectureReport) : Prop :=
  a.Architecture = b.Architecture ∧ a.Libraries.Perm b.Libraries ∧
    (a.Libraries.map fun lu => lu.Executables.length) =
      b.Libraries.map fun lu => lu.Executables.length

/-- The file system `fs` with the walk of every directory replaced by `entries`. -/
def withWalk (fs : FileSystem) (entries : List WalkEntry) : FileSystem :=
  { fs with walk := fun _ => entries }

/-! ## Report layout of the specification -/

/-- Stable insertion sort, one behaviour of `sort.Slice` (the one Go uses for
slices of fewer than 12 elements). -/
def stableSort {α : Type} (less : α → α → Bool) (l : List α) : List α :=
  l.insertionSort (fun a b => less b a = false)

/-- The runtime that visits maps in the given orders and sorts stably. -/
def stableRuntime (rangeArchs : ArchMap → ArchMap) (rangeLibs : String → LibMap → LibMap)
    (hA : ∀ m, (rangeArchs m).Perm m) (hL : ∀ arch m, (rangeLibs arch m).Perm m) : Runtime where
  rangeArchs := rangeArchs
  rangeLibs := rangeLibs
  sortSlice := stableSort
  rangeArchs_perm := hA
  rangeLibs_perm := hL
  sortSlice_perm := fun _ l => List.perm_insertionSort _ l
  sortSlice_sorted := by
    intro α less l h
    haveI : IsTotal α (fun a b => less b a = false) := ⟨fun a b => by
      by_cases hba : less b a = true
      · right
        by_contra hab
        have := h.trans _ _ _ hba (by simpa using hab)
        simp [h.irrefl] at this
      · left; simpa using hba⟩
    haveI : IsTrans α (fun a b => less b a = false) :=
      ⟨fun a b c hab hbc => h.negTrans _ _ _ hbc hab⟩
    exact List.sorted_insertionSort (fun a b => less b a = false) l

/-- Maps are visited in insertion order and the sort is stable. -/
def rtFirstSeen : Runtime :=
  stableRuntime (fun m => m) (fun _ m => m) (fun _ => List.Perm.refl _) (fun _ _ => List.Perm.refl _)

/-- Maps are visited starting from the second pair inserted and wrapping
around, as an iteration that starts at a random offset does; the sort is
stable. -/
def rtRotated : Runtime :=
  stableRuntime (fun m => m.rotate 1) (fun _ m => m.rotate 1)
    (fun m => List.rotate_perm m 1) (fun _ m => List.rotate_perm m 1)

/-- First bytes of a 64-bit little-endian ELF file. -/
def elfMagic : List Nat := [0x7F, 69, 76, 70, 2, 1, 1, 0]

/-- A directory `/d` with five x86-64 executables: `L3` is imported by `a`, `b`
and `c`, `L1` by `b`, `c` and `d` (so `L3` is recorded before `L1`), and `L2`
by all five. -/
def tieFS : FileSystem where
  walk := fun _ =>
    [⟨"/d", ⟨true⟩, none⟩, ⟨"/d/a", ⟨false⟩, none⟩, ⟨"/d/b", ⟨false⟩, none⟩,
      ⟨"/d/c", ⟨false⟩, none⟩, ⟨"/d/d", ⟨false⟩, none⟩, ⟨"/d/e", ⟨false⟩, none⟩]
  osOpen := fun _ => .ok elfMagic
  elfOpen := fun p =>
    if p = "/d/a" then .ok ⟨EM_X86_64, .ok ["L3", "L2"]⟩
    else if p = "/d/b" then .ok ⟨EM_X86_64, .ok ["L3", "L1", "L2"]⟩
    else if p = "/d/c" then .ok ⟨EM_X86_64, .ok ["L3", "L1", "L2"]⟩
    else if p = "/d/d" then .ok ⟨EM_X86_64, .ok ["L1", "L2"]⟩
    else .ok ⟨EM_X86_64, .ok ["L2"]⟩
  osCreate := fun _ => none
  osWrite := fun _ _ data => data.length

/-- Report of the scan of `tieFS` when maps are visited in insertion order. -/
def tieReportFirstSeen : Report :=
  ⟨"/d", [⟨"x86-64", [⟨"L2", ["/d/a", "/d/b", "/d/c", "/d/d", "/d/e"]⟩,
    ⟨"L3", ["/d/a", "/d/b", "/d/c"]⟩, ⟨"L1", ["/d/b", "/d/c", "/d/d"]⟩]⟩]⟩

/-- Report of the scan of `tieFS` when maps are visited from the second pair. -/
def tieReportRotated : Report :=
  ⟨"/d", [⟨"x86-64", [⟨"L2", ["/d/a", "/d/b", "/d/c", "/d/d", "/d/e"]⟩,
    ⟨"L1", ["/d/b", "/d/c", "/d/d"]⟩, ⟨"L3", ["/d/a", "/d/b", "/d/c"]⟩]⟩]⟩

/-- A directory `/m` with, in walk order: a script, an ELF file with a
truncated header, an ELF file for an unsupported machine, an ELF file with a
corrupt dynamic section, a statically linked aarch64 executable, an x86-64
executable importing `libc.so.6` and `libm.so.6`, and an aarch64 executable
importing `libc.so.6`. -/
def mixedFS : FileSystem where
  walk := fun _ =>
    [⟨"/m", ⟨true⟩, none⟩, ⟨"/m/a.sh", ⟨false⟩, none⟩, ⟨"/m/b", ⟨false⟩, none⟩,
      ⟨"/m/c", ⟨false⟩, none⟩, ⟨"/m/d", ⟨false⟩, none⟩, ⟨"/m/e", ⟨false⟩, none⟩,
      ⟨"/m/f", ⟨false⟩, none⟩, ⟨"/m/g", ⟨false⟩, none⟩]
  osOpen := fun p => if p = "/m/a.sh" then .ok [35, 33, 47] else .ok elfMagic
  elfOpen := fun p =>
    if p = "/m/b" then .error ⟨"unexpected EOF"⟩
    else if p = "/m/c" then .ok ⟨8, .ok ["libc.so.6"]⟩
    else if p = "/m/d" then .ok ⟨EM_X86_64, .error ⟨"bad string table"⟩⟩
    else if p = "/m/e" then .ok ⟨EM_AARCH64, .ok []⟩
    else if p = "/m/f" then .ok ⟨EM_X86_64, .ok ["libc.so.6", "libm.so.6"]⟩
    else .ok ⟨EM_AARCH64, .ok ["libc.so.6"]⟩
  osCreate := fun _ => none
  osWrite := fun _ _ data => data.length

/-- The walk entry of the statically linked executable of `mixedFS`. -/
def staticEntry : WalkEntry := ⟨"/m/e", ⟨false⟩, none⟩

/-- Report of the scan of `mixedFS`. -/
def mixedReport : Report :=
  ⟨"/m", [⟨"aarch64", [⟨"libc.so.6", ["/m/g"]⟩]⟩,
    ⟨"x86-64", [⟨"libc.so.6", ["/m/f"]⟩, ⟨"libm.so.6", ["/m/f"]⟩]⟩]⟩

/-- A walk of `mixedFS` in which the only aarch64 file is statically linked. -/
def staticOnlyWalk : List WalkEntry :=
  [⟨"/m/f", ⟨false⟩, none⟩, staticEntry]

/-- Report of the scan of `staticOnlyWalk`. -/
def staticOnlyReport : Report :=
  ⟨"/m", [⟨"aarch64", []⟩,
    ⟨"x86-64", [⟨"libc.so.6", ["/m/f"]⟩, ⟨"libm.so.6", ["/m/f"]⟩]⟩]⟩

/-- Report of the scan of `mixedFS` when maps are visited from the second pair. -/
def mixedReportRotated : Report :=
  ⟨"/m", [⟨"aarch64", [⟨"libc.so.6", ["/m/g"]⟩]⟩,
    ⟨"x86-64", [⟨"libm.so.6", ["/m/f"]⟩, ⟨"libc.so.6", ["/m/f"]⟩]⟩]⟩

/-- The walk entry of a statically linked x86-64 executable `/d/s`. -/
def tieStaticEntry : WalkEntry := ⟨"/d/s", ⟨false⟩, none⟩

/-- The directory of `tieFS` with the statically linked x86-64 executable
`/d/s` added at the end of the walk. -/
def tieStaticFS : FileSystem where
  walk := fun dir => tieFS.walk dir ++ [tieStaticEntry]
  osOpen := tieFS.osOpen
  elfOpen := fun p => if p = "/d/s" then .ok ⟨EM_X86_64, .ok []⟩ else tieFS.elfOpen p
  osCreate := tieFS.osCreate
  osWrite := tieFS.osWrite

/-- Text written for `tieReportFirstSeen`. -/
def tieTextFirstSeen : String :=
  "Report on dynamic used libraries by ELF executables on /d\n" ++
  rule50 ++ "\n\n" ++
  "---------- x86-64 ----------\n" ++
  "L2 (5 execs)\n-> /d/a\n-> /d/b\n-> /d/c\n-> /d/d\n-> /d/e\n" ++
  "L3 (3 execs)\n-> /d/a\n-> /d/b\n-> /d/c\n" ++
  "L1 (3 execs)\n-> /d/b\n-> /d/c\n-> /d/d\n\n"

/-- Text written for `tieReportRotated`. -/
def tieTextRotated : String :=
  "Report on dynamic used libraries by ELF executables on /d\n" ++
  rule50 ++ "\n\n" ++
  "---------- x86-64 ----------\n" ++
  "L2 (5 execs)\n-> /d/a\n-> /d/b\n-> /d/c\n-> /d/d\n-> /d/e\n" ++
  "L1 (3 execs)\n-> /d/b\n-> /d/c\n-> /d/d\n" ++
  "L3 (3 execs)\n-> /d/a\n-> /d/b\n-> /d/c\n\n"

/-! ## Format detection and classification -/

/-- Claim C1: `isELF` answers true exactly when the file can be opened, holds at
least 4 bytes and starts with 0x7F 'E' 'L' 'F'; an unreadable file, a file
shorter than 4 bytes and a file with other leading bytes all give false. The
result is a boolean: no error is ever returned. -/
theorem isELF_iff_magic (fs : FileSystem) (filePath : String) :
    (isELF fs filePath = true ↔
      ∃ bytes, fs.osOpen filePath = .ok bytes ∧ 4 ≤ bytes.length ∧
        bytes.take 4 = [0x7F, 'E'.toNat, 'L'.toNat, 'F'.toNat]) ∧
    (∀ err, fs.osOpen filePath = .error err → isELF fs filePath = false) ∧
    (∀ bytes, fs.osOpen filePath = .ok bytes → bytes.length < 4 → isELF fs filePath = false) ∧
    (∀ bytes, fs.osOpen filePath = .ok bytes →
      bytes.take 4 ≠ [0x7F, 'E'.toNat, 'L'.toNat, 'F'.toNat] → isELF fs filePath = false) := by
  have key : ∀ bytes, fs.osOpen filePath = .ok bytes →
      (isELF fs filePath = true ↔
        4 ≤ bytes.length ∧ bytes.take 4 = [0x7F, 'E'.toNat, 'L'.toNat, 'F'.toNat]) := by
    intro bytes h
    unfold isELF readFull
    rw [h]
    by_cases hlen : bytes.length < 4
    · simp only [hlen, if_true]
      constructor
      · intro h'; cases h'
      · rintro ⟨h4, -⟩; omega
    · simp only [hlen, if_false]
      match bytes, hlen with
      | [], hl | [_], hl | [_, _], hl | [_, _, _], hl => exact absurd (by simp) hl
      | a :: b :: c :: d :: rest, _ => simp [and_assoc]
  refine ⟨?_, ?_, ?_, ?_⟩
  · cases h : fs.osOpen filePath with
    | error err =>
      constructor
      · intro h'; simp [isELF, h] at h'
      · rintro ⟨bytes, hb, -⟩; cases hb
    | ok bytes =>
      rw [key bytes h]
      constructor
      · intro h'; exact ⟨bytes, rfl, h'⟩
      · rintro ⟨bytes', hb, h'⟩; cases hb; exact h'
  · intro err h; simp [isELF, h]
  · intro bytes h hlen
    cases hE : isELF fs filePath with
    | false => rfl
    | true => have := (key bytes h).1 hE; omega
  · intro bytes h hne
    cases hE : isELF fs filePath with
    | false => rfl
    | true => exact absurd ((key bytes h).1 hE).2 hne

/-- Claim C2: for a file `elf.Open` accepts, `getArchitecture` succeeds exactly
on the machine codes EM_386, EM_X86_64, EM_ARM and EM_AARCH64, with the labels
"i386 (x86)", "x86-64", "armv7" and "aarch64" in that order; any other code
gives an error and the empty label. The four labels are pairwise distinct and
the answer depends on the machine code only. -/
theorem getArchitecture_table (fs : FileSystem) (filePath : String) (file : ElfFile)
    (hopen : fs.elfOpen filePath = .ok file) :
    ((getArchitecture fs filePath).2 = none ↔
      file.Machine = EM_386 ∨ file.Machine = EM_X86_64 ∨ file.Machine = EM_ARM ∨
        file.Machine = EM_AARCH64) ∧
    (file.Machine = EM_386 → getArchitecture fs filePath = ("i386 (x86)", none)) ∧
    (file.Machine = EM_X86_64 → getArchitecture fs filePath = ("x86-64", none)) ∧
    (file.Machine = EM_ARM → getArchitecture fs filePath = ("armv7", none)) ∧
    (file.Machine = EM_AARCH64 → getArchitecture fs filePath = ("aarch64", none)) ∧
    ((getArchitecture fs filePath).2 ≠ none → (getArchitecture fs filePath).1 = "") ∧
    ["i386 (x86)", "x86-64", "armv7", "aarch64"].Nodup ∧
    (∀ (fs' : FileSystem) (filePath' : String) (file' : ElfFile),
      fs'.elfOpen filePath' = .ok file' → file'.Machine = file.Machine →
        getArchitecture fs' filePath' = getArchitecture fs filePath) := by
  have hval : ∀ (fs' : FileSystem) (p' : String) (f' : ElfFile), fs'.elfOpen p' = .ok f' →
      getArchitecture fs' p' =
        if f'.Machine = EM_386 then ("i386 (x86)", none)
        else if f'.Machine = EM_X86_64 then ("x86-64", none)
        else if f'.Machine = EM_ARM then ("armv7", none)
        else if f'.Machine = EM_AARCH64 then ("aarch64", none)
        else ("", some ⟨"unsupported architecture"⟩) := by
    intro fs' p' f' h
    simp only [getArchitecture, h]
  rw [hval fs filePath file hopen]
  refine ⟨?_, ?_, ?_, ?_, ?_, ?_, by decide, ?_⟩
  · split_ifs <;> simp [*]
  · intro h; simp [h]
  · intro h; simp [h, EM_386, EM_X86_64]
  · intro h; simp [h, EM_386, EM_X86_64, EM_ARM]
  · intro h; simp [h, EM_386, EM_X86_64, EM_ARM, EM_AARCH64]
  · split_ifs <;> simp [*]
  · intro fs' p' f' h hm
    rw [hval fs' p' f' h, hm]

theorem getArchitecture_table_witness :
    tieFS.elfOpen "/d/a" = .ok ⟨EM_X86_64, .ok ["L3", "L2"]⟩ ∧
      getArchitecture tieFS "/d/a" = ("x86-64", none) :=
  ⟨rfl, (getArchitecture_table tieFS "/d/a" ⟨EM_X86_64, .ok ["L3", "L2"]⟩ rfl).2.2.1 rfl⟩

/-! ## Report text -/

theorem mapGet?_mapSet {V : Type} (m : List (String × V)) (k k' : String) (v : V) :
    mapGet? (mapSet m k v) k' = if k = k' then some v else mapGet? m k' := by
  induction m with
  | nil => simp [mapSet, mapGet?]
  | cons p m ih =>
    obtain ⟨k0, v0⟩ := p
    by_cases h : k0 = k
    · subst h
      by_cases h' : k0 = k' <;> simp [mapSet, mapGet?, h']
    · by_cases h' : k0 = k'
      · subst h'
        simp [mapSet, mapGet?, h, Ne.symm h]
      · simp [mapSet, mapGet?, h, h', ih]

theorem keys_mapSet {V : Type} (m : List (String × V)) (k : String) (v : V) :
    (mapSet m k v).map Prod.fst =
      if k ∈ m.map Prod.fst then m.map Prod.fst else m.map Prod.fst ++ [k] := by
  induction m with
  | nil => simp [mapSet]
  | cons p m ih =>
    obtain ⟨k0, v0⟩ := p
    by_cases h : k0 = k
    · subst h; simp [mapSet]
    · have h' : ¬ k = k0 := Ne.symm h
      simp only [mapSet, h, if_false, List.map_cons, ih, List.mem_cons, h', false_or]
      split_ifs <;> simp

theorem mem_keys_mapSet {V : Type} (m : List (String × V)) (k k' : String) (v : V) :
    k' ∈ (mapSet m k v).map Prod.fst ↔ k' = k ∨ k' ∈ m.map Prod.fst := by
  rw [keys_mapSet]
  split_ifs with h
  · constructor
    · exact Or.inr
    · rintro (rfl | h') <;> assumption
  · simp [or_comm]

theorem nodup_keys_mapSet {V : Type} (m : List (String × V)) (k : String) (v : V)
    (h : (m.map Prod.fst).Nodup) : ((mapSet m k v).map Prod.fst).Nodup := by
  rw [keys_mapSet]
  split_ifs with hk
  · exact h
  · exact List.Nodup.append h (List.nodup_singleton k) (by simpa using hk)

theorem mapGet?_eq_none {V : Type} (m : List (String × V)) (k : String) :
    mapGet? m k = none ↔ k ∉ m.map Prod.fst := by
  induction m with
  | nil => simp [mapGet?]
  | cons p m ih =>
    obtain ⟨k0, v0⟩ := p
    by_cases h : k0 = k
    · simp [mapGet?, h]
    · simp [mapGet?, h, ih, Ne.symm h]

theorem mem_iff_mapGet? {V : Type} (m : List (String × V)) (h : (m.map Prod.fst).Nodup)
    (k : String) (v : V) : (k, v) ∈ m ↔ mapGet? m k = some v := by
  induction m with
  | nil => simp [mapGet?]
  | cons p m ih =>
    obtain ⟨k0, v0⟩ := p
    simp only [List.map_cons, List.nodup_cons] at h
    by_cases hk : k0 = k
    · subst hk
      have hnot : ∀ v', (k0, v') ∉ m := fun v' hm => h.1 (List.mem_map_of_mem Prod.fst hm)
      simp [mapGet?, hnot, eq_comm]
    · simp [mapGet?, hk, ih h.2, Ne.symm hk]

theorem mapIndex_of_mem {V : Type} (m : List (String × List V)) (h : (m.map Prod.fst).Nodup)
    (p : String × List V) (hp : p ∈ m) : mapIndex m p.1 = p.2 := by
  have := (mem_iff_mapGet? m h p.1 p.2).1 hp
  simp [mapIndex, this]

theorem mapIndex_of_not_mem {V : Type} (m : List (String × List V)) (k : String)
    (h : k ∉ m.map Prod.fst) : mapIndex m k = [] := by
  simp [mapIndex, (mapGet?_eq_none m k).2 h]

theorem mapIndex_mapSet {V : Type} (m : List (String × List V)) (k k' : String) (v : List V) :
    mapIndex (mapSet m k v) k' = if k = k' then v else mapIndex m k' := by
  unfold mapIndex
  rw [mapGet?_mapSet]
  split_ifs <;> rfl

/-! ## Aggregation of one file -/

theorem mapIndex_aggregateLibs (lm : LibMap) (libs : List String) (path lib : String) :
    mapIndex (aggregateLibs lm libs path) lib =
      mapIndex lm lib ++ (libs.filter fun l => decide (l = lib)).map fun _ => path := by
  induction libs generalizing lm with
  | nil => simp [aggregateLibs]
  | cons l ls ih =>
    have hstep : aggregateLibs lm (l :: ls) path =
        aggregateLibs (mapSet lm l (mapIndex lm l ++ [path])) ls path := rfl
    rw [hstep, ih, mapIndex_mapSet]
    by_cases h : l = lib
    · subst h; simp
    · simp [h]

theorem mem_keys_aggregateLibs (lm : LibMap) (libs : List String) (path lib : String) :
    lib ∈ (aggregateLibs lm libs path).map Prod.fst ↔ lib ∈ lm.map Prod.fst ∨ lib ∈ libs := by
  induction libs generalizing lm with
  | nil => simp [aggregateLibs]
  | cons l ls ih =>
    have hstep : aggregateLibs lm (l :: ls) path =
        aggregateLibs (mapSet lm l (mapIndex lm l ++ [path])) ls path := rfl
    rw [hstep, ih, mem_keys_mapSet]
    simp only [List.mem_cons]
    tauto

theorem nodup_keys_aggregateLibs (lm : LibMap) (libs : List String) (path : String)
    (h : (lm.map Prod.fst).Nodup) : ((aggregateLibs lm libs path).map Prod.fst).Nodup := by
  induction libs generalizing lm with
  | nil => simpa [aggregateLibs] using h
  | cons l ls ih =>
    have hstep : aggregateLibs lm (l :: ls) path =
        aggregateLibs (mapSet lm l (mapIndex lm l ++ [path])) ls path := rfl
    rw [hstep]
    exact ih _ (nodup_keys_mapSet _ _ _ h)

theorem mapIndex_recordLib (m : ArchMap) (arch lib path arch' : String) :
    mapIndex (recordLib m arch lib path) arch' =
      if arch = arch' then
        mapSet (mapIndex m arch) lib (mapIndex (mapIndex m arch) lib ++ [path])
      else mapIndex m arch' := by
  unfold recordLib
  rw [mapIndex_mapSet]

theorem keys_recordLib (m : ArchMap) (arch lib path : String) (h : arch ∈ m.map Prod.fst) :
    (recordLib m arch lib path).map Prod.fst = m.map Prod.fst := by
  unfold recordLib
  rw [keys_mapSet, if_pos h]

theorem keys_foldl_recordLib (libs : List String) (m : ArchMap) (arch path : String)
    (h : arch ∈ m.map Prod.fst) :
    (libs.foldl (fun m lib => recordLib m arch lib path) m).map Prod.fst = m.map Prod.fst := by
  induction libs generalizing m with
  | nil => rfl
  | cons l ls ih =>
    rw [List.foldl_cons, ih _ (by rw [keys_recordLib _ _ _ _ h]; exact h), keys_recordLib _ _ _ _ h]

theorem mapIndex_foldl_recordLib (libs : List String) (m : ArchMap) (arch path arch' : String) :
    mapIndex (libs.foldl (fun m lib => recordLib m arch lib path) m) arch' =
      if arch = arch' then aggregateLibs (mapIndex m arch) libs path else mapIndex m arch' := by
  induction libs generalizing m with
  | nil => by_cases h : arch = arch' <;> simp [aggregateLibs, h]
  | cons l ls ih =>
    rw [List.foldl_cons, ih]
    by_cases h : arch = arch'
    · subst h
      simp only [if_true, mapIndex_recordLib]
      rfl
    · simp [h, mapIndex_recordLib]

theorem keys_aggregate (m : ArchMap) (arch : String) (libs : List String) (path : String) :
    (aggregate m arch libs path).map Prod.fst =
      if arch ∈ m.map Prod.fst then m.map Prod.fst else m.map Prod.fst ++ [arch] := by
  unfold aggregate
  by_cases h : arch ∈ m.map Prod.fst
  · have hget : (mapGet? m arch).isNone = false := by
      cases hg : mapGet? m arch with
      | none => exact absurd h ((mapGet?_eq_none m arch).1 hg)
      | some v => rfl
    rw [hget, if_pos h]
    simp only [Bool.false_eq_true, if_false]
    exact keys_foldl_recordLib libs m arch path h
  · have hget : (mapGet? m arch).isNone = true := by
      rw [(mapGet?_eq_none m arch).2 h]; rfl
    rw [hget, if_neg h]
    simp only [if_true]
    rw [keys_foldl_recordLib libs _ arch path (by rw [mem_keys_mapSet]; exact Or.inl rfl),
      keys_mapSet, if_neg h]

theorem mapIndex_aggregate (m : ArchMap) (arch : String) (libs : List String)
    (path arch' : String) :
    mapIndex (aggregate m arch libs path) arch' =
      if arch = arch' then aggregateLibs (mapIndex m arch) libs path else mapIndex m arch' := by
  unfold aggregate
  rw [mapIndex_foldl_recordLib]
  cases hg : mapGet? m arch with
  | some v => simp
  | none =>
    have hnil : mapIndex m arch = [] := by simp [mapIndex, hg]
    simp only [Option.isNone_none, if_true, mapIndex_mapSet, hnil]
    by_cases h : arch = arch' <;> simp [h]

theorem execsOf_aggregate (m : ArchMap) (arch : String) (libs : List String)
    (path arch' lib : String) :
    execsOf (aggregate m arch libs path) arch' lib =
      execsOf m arch' lib ++
        if arch = arch' then (libs.filter fun l => decide (l = lib)).map fun _ => path else [] := by
  unfold execsOf
  rw [mapIndex_aggregate]
  by_cases h : arch = arch'
  · subst h; simp [mapIndex_aggregateLibs]
  · simp [h]

theorem WF_nil : WF [] := by
  refine ⟨List.nodup_nil, fun arch => ⟨?_, fun lib => ?_⟩⟩ <;> simp [mapIndex, mapGet?, execsOf]

theorem WF_aggregate (m : ArchMap) (arch : String) (libs : List String) (path : String)
    (h : WF m) : WF (aggregate m arch libs path) := by
  refine ⟨?_, fun arch' => ⟨?_, fun lib => ?_⟩⟩
  · rw [keys_aggregate]
    split_ifs with hk
    · exact h.1
    · exact List.Nodup.append h.1 (List.nodup_singleton arch) (by simpa using hk)
  · rw [mapIndex_aggregate]
    split_ifs
    · exact nodup_keys_aggregateLibs _ _ _ (h.2 arch).1
    · exact (h.2 arch').1
  · rw [execsOf_aggregate, mapIndex_aggregate]
    by_cases ha : arch = arch'
    · subst ha
      simp only [if_true, mem_keys_aggregateLibs, (h.2 arch).2 lib]
      simp [List.filter_eq_nil_iff]
      tauto
    · simp only [ha, if_false, List.append_nil]
      exact (h.2 arch').2 lib

theorem walkFn_eq (fs : FileSystem) (m : ArchMap) (e : WalkEntry) :
    walkFn fs m e.path e.info e.err =
      match e.err with
      | some err => (m, some err)
      | none =>
        (match accepted fs e with
          | some (arch, libs) => aggregate m arch libs e.path
          | none => m, none) := by
  obtain ⟨path, ⟨isDir⟩, err⟩ := e
  cases err with
  | some err => rfl
  | none =>
    simp only [walkFn, accepted, aggregate]
    cases isDir <;> cases hE : isELF fs path <;> simp
    rcases hA : getArchitecture fs path with ⟨arch, _ | aerr⟩
    · cases hO : fs.elfOpen path with
      | error oerr => simp
      | ok file =>
        cases hL : file.ImportedLibraries with
        | error lerr => simp [hL]
        | ok libs => simp [hL]
    · simp

/-! ## The walk -/

theorem walkFn_of_no_err (fs : FileSystem) (m : ArchMap) (e : WalkEntry) (h : e.err = none) :
    walkFn fs m e.path e.info e.err = (absorb fs m e, none) := by
  rw [walkFn_eq, h]
  rfl

theorem filepathWalk_err (fs : FileSystem) (entries : List WalkEntry) (m0 : ArchMap) :
    (filepathWalk (walkFn fs) entries m0).2 = entries.findSome? fun e => e.err := by
  induction entries generalizing m0 with
  | nil => rfl
  | cons e es ih =>
    cases he : e.err with
    | none =>
      have hw := walkFn_of_no_err fs m0 e he
      simp only [filepathWalk, List.findSome?_cons, he]
      rw [he] at hw
      rw [hw]
      exact ih _
    | some err =>
      have hw := walkFn_eq fs m0 e
      rw [he] at hw
      simp only [filepathWalk, List.findSome?_cons, he]
      rw [hw]

theorem filepathWalk_state (fs : FileSystem) (entries : List WalkEntry) (m0 : ArchMap)
    (h : ∀ e ∈ entries, e.err = none) :
    (filepathWalk (walkFn fs) entries m0).1 = entries.foldl (absorb fs) m0 := by
  induction entries generalizing m0 with
  | nil => rfl
  | cons e es ih =>
    have he := h e (List.mem_cons_self _ _)
    have hw := walkFn_of_no_err fs m0 e he
    simp only [filepathWalk, List.foldl_cons]
    rw [hw]
    exact ih _ fun e' he' => h e' (List.mem_cons_of_mem _ he')

theorem findSome?_err_eq_none (entries : List WalkEntry) :
    (entries.findSome? fun e => e.err) = none ↔ ∀ e ∈ entries, e.err = none := by
  simp [List.findSome?_eq_none_iff]

theorem recordedExecs_cons (fs : FileSystem) (e : WalkEntry) (es : List WalkEntry)
    (arch lib : String) :
    recordedExecs fs (e :: es) arch lib =
      (match accepted fs e with
        | some (a, libs) =>
          if a = arch then (libs.filter fun l => decide (l = lib)).map fun _ => e.path else []
        | none => []) ++ recordedExecs fs es arch lib := by
  simp only [recordedExecs, records, List.flatMap_cons, List.filter_append, List.map_append]
  congr 1
  cases accepted fs e with
  | none => rfl
  | some p =>
    obtain ⟨a, libs⟩ := p
    by_cases h : a = arch
    · subst h
      simp [List.filter_map, Function.comp_def]
    · simp [List.filter_map, Function.comp_def, h]

theorem execsOf_foldl_absorb (fs : FileSystem) (entries : List WalkEntry) (m0 : ArchMap)
    (arch lib : String) :
    execsOf (entries.foldl (absorb fs) m0) arch lib =
      execsOf m0 arch lib ++ recordedExecs fs entries arch lib := by
  induction entries generalizing m0 with
  | nil => simp [recordedExecs, records]
  | cons e es ih =>
    rw [List.foldl_cons, ih, recordedExecs_cons, ← List.append_assoc]
    congr 1
    unfold absorb
    cases accepted fs e with
    | none => simp
    | some p =>
      obtain ⟨a, libs⟩ := p
      exact execsOf_aggregate m0 a libs e.path arch lib

theorem mem_keys_foldl_absorb (fs : FileSystem) (entries : List WalkEntry) (m0 : ArchMap)
    (arch : String) :
    arch ∈ (entries.foldl (absorb fs) m0).map Prod.fst ↔
      arch ∈ m0.map Prod.fst ∨ arch ∈ observedArchs fs entries := by
  induction entries generalizing m0 with
  | nil => simp [observedArchs]
  | cons e es ih =>
    rw [List.foldl_cons, ih]
    simp only [observedArchs, List.filterMap_cons, absorb]
    cases accepted fs e with
    | none => simp
    | some p =>
      obtain ⟨a, libs⟩ := p
      simp only [Option.map_some', List.mem_cons, keys_aggregate]
      split_ifs with hk
      · constructor
        · rintro (h | h)
          · exact Or.inl h
          · exact Or.inr (Or.inr h)
        · rintro (h | h | h)
          · exact Or.inl h
          · exact Or.inl (h ▸ hk)
          · exact Or.inr h
      · simp only [List.mem_append, List.mem_singleton]
        tauto

theorem WF_foldl_absorb (fs : FileSystem) (entries : List WalkEntry) (m0 : ArchMap)
    (h : WF m0) : WF (entries.foldl (absorb fs) m0) := by
  induction entries generalizing m0 with
  | nil => exact h
  | cons e es ih =>
    rw [List.foldl_cons]
    apply ih
    unfold absorb
    cases accepted fs e with
    | none => exact h
    | some p => exact WF_aggregate m0 p.1 p.2 e.path h

/-! ## The two orders -/

theorem lexLess_iff_lex (a b : List Char) :
    lexLess a b = true ↔ List.Lex (fun x y => x < y) a b := by
  induction a generalizing b with
  | nil =>
    cases b with
    | nil => simp [lexLess]
    | cons y bs => simp [lexLess, List.Lex.nil]
  | cons x as ih =>
    cases b with
    | nil => simp [lexLess]
    | cons y bs =>
      rcases lt_trichotomy x y with h | h | h
      · simp [lexLess, h, List.Lex.rel h]
      · subst h
        simp [lexLess, ih, List.Lex.cons_iff]
      · have h' : ¬ x < y := not_lt_of_gt h
        simp only [lexLess, h', h, if_false, if_true, Bool.false_eq_true, false_iff]
        intro hlex
        cases hlex with
        | cons _ => exact lt_irrefl _ h
        | rel hr => exact h' hr

theorem stringLess_iff_lt (a b : String) : stringLess a b = true ↔ a < b := by
  rw [String.lt_iff_toList_lt, stringLess, lexLess_iff_lex]
  exact Iff.rfl

theorem stringLess_eq_false_iff (a b : String) : stringLess a b = false ↔ b ≤ a := by
  rw [← not_lt, ← stringLess_iff_lt]
  simp

theorem lessArch_ok : LessOK lessArch where
  irrefl := fun a => by simp [lessArch, stringLess_eq_false_iff]
  trans := fun a b c => by
    simp only [lessArch, stringLess_iff_lt]
    exact lt_trans
  negTrans := fun a b c => by
    simp only [lessArch, stringLess_eq_false_iff]
    exact fun h1 h2 => le_trans h2 h1

theorem lessLib_ok : LessOK lessLib where
  irrefl := fun a => by simp [lessLib]
  trans := fun a b c => by
    simp only [lessLib, decide_eq_true_eq]
    omega
  negTrans := fun a b c => by
    simp only [lessLib, decide_eq_false_iff_not]
    omega

/-! ## Building the report -/

theorem foldl_snoc_eq_map {α β : Type} (f : α → β) (l : List α) (init : List β) :
    l.foldl (fun acc p => acc ++ [f p]) init = init ++ l.map f := by
  induction l generalizing init with
  | nil => simp
  | cons x l ih => simp [ih]

theorem buildLibraries_perm (rt : Runtime) (arch : String) (libMap : LibMap) :
    (buildLibraries rt arch libMap).Perm (libMap.map fun p => ⟨p.1, p.2⟩) := by
  unfold buildLibraries
  rw [foldl_snoc_eq_map (fun p : String × List String => (⟨p.1, p.2⟩ : LibraryUsage))]
  exact (rt.sortSlice_perm _ _).trans
    (by simpa using (rt.rangeLibs_perm arch libMap).map _)

theorem buildLibraries_sorted (rt : Runtime) (arch : String) (libMap : LibMap) :
    (buildLibraries rt arch libMap).Pairwise
      (fun a b => a.Executables.length ≥ b.Executables.length) := by
  unfold buildLibraries
  refine (rt.sortSlice_sorted lessLib _ lessLib_ok).imp ?_
  intro a b h
  simpa [lessLib] using h

theorem buildArchReports_perm (rt : Runtime) (m : ArchMap) :
    (buildArchReports rt m).Perm (m.map fun p => ⟨p.1, buildLibraries rt p.1 p.2⟩) := by
  unfold buildArchReports
  rw [foldl_snoc_eq_map
    (fun p : String × LibMap => (⟨p.1, buildLibraries rt p.1 p.2⟩ : ArchitectureReport))]
  exact (rt.sortSlice_perm _ _).trans
    (by simpa using (rt.rangeArchs_perm m).map _)

theorem buildArchReports_sorted (rt : Runtime) (m : ArchMap) :
    (buildArchReports rt m).Pairwise (fun a b => a.Architecture ≤ b.Architecture) := by
  unfold buildArchReports
  refine (rt.sortSlice_sorted lessArch _ lessArch_ok).imp ?_
  intro a b h
  exact (stringLess_eq_false_iff _ _).1 h

theorem scanDirectory_eq (rt : Runtime) (fs : FileSystem) (dir : String) :
    scanDirectory rt fs dir =
      match (fs.walk dir).findSome? fun e => e.err with
      | some err => .error err
      | none => .ok ⟨dir, buildArchReports rt ((fs.walk dir).foldl (absorb fs) [])⟩ := by
  have herr := filepathWalk_err fs (fs.walk dir) []
  unfold scanDirectory
  rcases hw : filepathWalk (walkFn fs) (fs.walk dir) [] with ⟨m, _ | err⟩
  · rw [hw] at herr
    simp only at herr
    rw [← herr]
    have hst := filepathWalk_state fs (fs.walk dir) []
      ((findSome?_err_eq_none _).1 herr.symm)
    rw [hw] at hst
    simp only at hst
    rw [hst]
  · rw [hw] at herr
    simp only at herr
    rw [← herr]

theorem scanDirectory_ok (rt : Runtime) (fs : FileSystem) (dir : String) (r : Report)
    (h : scanDirectory rt fs dir = .ok r) :
    (∀ e ∈ fs.walk dir, e.err = none) ∧
      r = ⟨dir, buildArchReports rt ((fs.walk dir).foldl (absorb fs) [])⟩ := by
  rw [scanDirectory_eq] at h
  cases hf : (fs.walk dir).findSome? fun e => e.err with
  | some err => rw [hf] at h; cases h
  | none =>
    rw [hf] at h
    simp only [Except.ok.injEq] at h
    exact ⟨(findSome?_err_eq_none _).1 hf, h.symm⟩

theorem labels_buildArchReports (rt : Runtime) (m : ArchMap) :
    ((buildArchReports rt m).map fun ar => ar.Architecture).Perm (m.map Prod.fst) := by
  have h := (buildArchReports_perm rt m).map fun ar => ar.Architecture
  simpa [Function.comp_def] using h

theorem mem_buildArchReports (rt : Runtime) (m : ArchMap) (hm : (m.map Prod.fst).Nodup)
    (ar : ArchitectureReport) :
    ar ∈ buildArchReports rt m ↔
      ar.Architecture ∈ m.map Prod.fst ∧
        ar.Libraries = buildLibraries rt ar.Architecture (mapIndex m ar.Architecture) := by
  rw [(buildArchReports_perm rt m).mem_iff, List.mem_map]
  constructor
  · rintro ⟨p, hp, rfl⟩
    exact ⟨List.mem_map_of_mem Prod.fst hp, by rw [mapIndex_of_mem m hm p hp]⟩
  · rintro ⟨hk, hl⟩
    obtain ⟨p, hp, hpk⟩ := List.mem_map.1 hk
    refine ⟨p, hp, ?_⟩
    obtain ⟨A, libs⟩ := ar
    simp only at hpk hl
    subst hpk
    rw [hl, mapIndex_of_mem m hm p hp]

theorem names_buildLibraries (rt : Runtime) (arch : String) (lm : LibMap) :
    ((buildLibraries rt arch lm).map fun lu => lu.Library).Perm (lm.map Prod.fst) := by
  have h := (buildLibraries_perm rt arch lm).map fun lu => lu.Library
  simpa [Function.comp_def] using h

theorem mem_buildLibraries (rt : Runtime) (arch : String) (lm : LibMap)
    (hlm : (lm.map Prod.fst).Nodup) (lu : LibraryUsage) :
    lu ∈ buildLibraries rt arch lm ↔
      lu.Library ∈ lm.map Prod.fst ∧ lu.Executables = mapIndex lm lu.Library := by
  rw [(buildLibraries_perm rt arch lm).mem_iff, List.mem_map]
  constructor
  · rintro ⟨p, hp, rfl⟩
    exact ⟨List.mem_map_of_mem Prod.fst hp, by rw [mapIndex_of_mem lm hlm p hp]⟩
  · rintro ⟨hk, hl⟩
    obtain ⟨p, hp, hpk⟩ := List.mem_map.1 hk
    refine ⟨p, hp, ?_⟩
    obtain ⟨L, execs⟩ := lu
    simp only at hpk hl
    subst hpk
    rw [hl, mapIndex_of_mem lm hlm p hp]

theorem mem_records (fs : FileSystem) (entries : List WalkEntry) (arch lib path : String) :
    (arch, lib, path) ∈ records fs entries ↔
      ∃ e ∈ entries, ∃ libs, accepted fs e = some (arch, libs) ∧ lib ∈ libs ∧ path = e.path := by
  simp only [records, List.mem_flatMap]
  constructor
  · rintro ⟨e, he, hmem⟩
    cases ha : accepted fs e with
    | none => rw [ha] at hmem; simp at hmem
    | some p =>
      obtain ⟨a, libs⟩ := p
      rw [ha] at hmem
      simp only [List.mem_map, Prod.mk.injEq] at hmem
      obtain ⟨l, hl, rfl, rfl, rfl⟩ := hmem
      exact ⟨e, he, libs, ha, hl, rfl⟩
  · rintro ⟨e, he, libs, ha, hl, rfl⟩
    refine ⟨e, he, ?_⟩
    rw [ha]
    exact List.mem_map.2 ⟨lib, hl, rfl⟩

theorem recordedExecs_ne_nil (fs : FileSystem) (entries : List WalkEntry) (arch lib : String) :
    recordedExecs fs entries arch lib ≠ [] ↔
      ∃ e ∈ entries, ∃ libs, accepted fs e = some (arch, libs) ∧ lib ∈ libs := by
  rw [recordedExecs, Ne, List.map_eq_nil_iff, List.filter_eq_nil_iff]
  push_neg
  constructor
  · rintro ⟨⟨a, l, p⟩, hmem, hp⟩
    simp only [decide_eq_true_eq] at hp
    obtain ⟨rfl, rfl⟩ := hp
    obtain ⟨e, he, libs, ha, hl, -⟩ := (mem_records fs entries a l p).1 hmem
    exact ⟨e, he, libs, ha, hl⟩
  · rintro ⟨e, he, libs, ha, hl⟩
    exact ⟨(arch, lib, e.path), (mem_records fs entries arch lib e.path).2
      ⟨e, he, libs, ha, hl, rfl⟩, by simp⟩

theorem mem_observedArchs (fs : FileSystem) (entries : List WalkEntry) (arch : String) :
    arch ∈ observedArchs fs entries ↔ ∃ e ∈ entries, ∃ libs, accepted fs e = some (arch, libs) := by
  simp only [observedArchs, List.mem_filterMap, Option.map_eq_some', Prod.exists]
  constructor
  · rintro ⟨e, he, a, libs, ha, rfl⟩
    exact ⟨e, he, libs, ha⟩
  · rintro ⟨e, he, libs, ha⟩
    exact ⟨e, he, arch, libs, ha, rfl⟩

/-- The aggregation state at the end of a walk without errors. -/
theorem final_state (fs : FileSystem) (entries : List WalkEntry) :
    WF (entries.foldl (absorb fs) []) ∧
    (∀ arch, arch ∈ (entries.foldl (absorb fs) []).map Prod.fst ↔
      arch ∈ observedArchs fs entries) ∧
    (∀ arch lib, execsOf (entries.foldl (absorb fs) []) arch lib =
      recordedExecs fs entries arch lib) := by
  refine ⟨WF_foldl_absorb fs entries [] WF_nil, fun arch => ?_, fun arch lib => ?_⟩
  · rw [mem_keys_foldl_absorb]; simp
  · rw [execsOf_foldl_absorb]; simp [execsOf, mapIndex, mapGet?]

/-! ## Order and content of the report -/

/-- Claim C3: in every architecture report of a successful scan the libraries
are sorted by number of executables in descending order: for positions i < j the
library at i has at least as many executables as the library at j. -/
theorem libraries_sorted_desc (rt : Runtime) (fs : FileSystem) (dir : String) (r : Report)
    (h : scanDirectory rt fs dir = .ok r) (ar : ArchitectureReport) (har : ar ∈ r.ArchReports)
    (i j : Nat) (hij : i < j) (hj : j < ar.Libraries.length) :
    (ar.Libraries.get ⟨i, lt_trans hij hj⟩).Executables.length ≥
      (ar.Libraries.get ⟨j, hj⟩).Executables.length := by
  obtain ⟨-, rfl⟩ := scanDirectory_ok rt fs dir r h
  have hwf := (final_state fs (fs.walk dir)).1
  have hl := ((mem_buildArchReports rt _ hwf.1 ar).1 har).2
  have hs := buildLibraries_sorted rt ar.Architecture
    (mapIndex ((fs.walk dir).foldl (absorb fs) []) ar.Architecture)
  rw [← hl] at hs
  exact (List.pairwise_iff_get.1 hs) ⟨i, lt_trans hij hj⟩ ⟨j, hj⟩ hij

theorem libraries_sorted_desc_witness :
    scanDirectory rtRotated tieFS "/d" = .ok tieReportRotated ∧
      (5 : Nat) ≥ 3 :=
  ⟨rfl, libraries_sorted_desc rtRotated tieFS "/d" tieReportRotated rfl
    ⟨"x86-64", [⟨"L2", ["/d/a", "/d/b", "/d/c", "/d/d", "/d/e"]⟩,
      ⟨"L1", ["/d/b", "/d/c", "/d/d"]⟩, ⟨"L3", ["/d/a", "/d/b", "/d/c"]⟩]⟩
    (List.mem_singleton.2 rfl) 0 1 (by decide) (by decide)⟩

/-- Claim C5: after a successful scan the architecture reports are strictly
ascending in the lexicographic order of their labels, so no label occurs twice;
the labels are exactly the architectures of the accepted files (those that pass
the magic check, classification and dependency extraction), and an architecture
whose accepted files all declare no library has a report with no libraries. -/
theorem archReports_strictly_ascending (rt : Runtime) (fs : FileSystem) (dir : String)
    (r : Report) (h : scanDirectory rt fs dir = .ok r) :
    (r.ArchReports.map fun ar => ar.Architecture).Pairwise (fun a b => stringLess a b = true) ∧
    (r.ArchReports.map fun ar => ar.Architecture).Nodup ∧
    (∀ arch, arch ∈ (r.ArchReports.map fun ar => ar.Architecture) ↔
      ∃ e ∈ fs.walk dir, ∃ libs, accepted fs e = some (arch, libs)) ∧
    (∀ ar ∈ r.ArchReports,
      (∀ e ∈ fs.walk dir, ∀ libs, accepted fs e = some (ar.Architecture, libs) → libs = []) →
        ar.Libraries = []) := by
  obtain ⟨-, rfl⟩ := scanDirectory_ok rt fs dir r h
  obtain ⟨hwf, hkeys, hexecs⟩ := final_state fs (fs.walk dir)
  have hperm := labels_buildArchReports rt ((fs.walk dir).foldl (absorb fs) [])
  have hnodup : ((buildArchReports rt ((fs.walk dir).foldl (absorb fs) [])).map
      fun ar => ar.Architecture).Nodup := hperm.nodup_iff.2 hwf.1
  refine ⟨?_, hnodup, fun arch => ?_, fun ar har hall => ?_⟩
  · have hle := List.pairwise_map.2 (buildArchReports_sorted rt ((fs.walk dir).foldl (absorb fs) []))
    refine (hle.and hnodup).imp ?_
    intro a b hab
    exact (stringLess_iff_lt a b).2 (lt_of_le_of_ne hab.1 hab.2)
  · rw [hperm.mem_iff, hkeys, mem_observedArchs]
  · have hl := ((mem_buildArchReports rt _ hwf.1 ar).1 har).2
    have hnil : mapIndex ((fs.walk dir).foldl (absorb fs) []) ar.Architecture = [] := by
      apply List.eq_nil_iff_forall_not_mem.2
      intro p hp
      have hk : p.1 ∈ (mapIndex ((fs.walk dir).foldl (absorb fs) []) ar.Architecture).map
          Prod.fst := List.mem_map_of_mem Prod.fst hp
      have hne := ((hwf.2 ar.Architecture).2 p.1).1 hk
      rw [hexecs, recordedExecs_ne_nil] at hne
      obtain ⟨e, he, libs, ha, hmem⟩ := hne
      rw [hall e he libs ha] at hmem
      cases hmem
    rw [hl, hnil]
    exact List.perm_nil.1 (buildLibraries_perm rt ar.Architecture [])

theorem archReports_strictly_ascending_witness :
    scanDirectory rtRotated mixedFS "/m" = .ok mixedReportRotated ∧
      (mixedReportRotated.ArchReports.map fun ar => ar.Architecture) = ["aarch64", "x86-64"] ∧
      (mixedReportRotated.ArchReports.map fun ar => ar.Architecture).Pairwise
        (fun a b => stringLess a b = true) ∧
      (mixedReportRotated.ArchReports.map fun ar => ar.Architecture).Nodup ∧
      (∀ arch, arch ∈ (mixedReportRotated.ArchReports.map fun ar => ar.Architecture) ↔
        ∃ e ∈ mixedFS.walk "/m", ∃ libs, accepted mixedFS e = some (arch, libs)) ∧
      scanDirectory rtFirstSeen (withWalk mixedFS staticOnlyWalk) "/m" = .ok staticOnlyReport ∧
      (staticOnlyReport.ArchReports.map fun ar => ar.Architecture).Pairwise
        (fun a b => stringLess a b = true) ∧
      (⟨"aarch64", []⟩ : ArchitectureReport) ∈ staticOnlyReport.ArchReports :=
  ⟨rfl, rfl,
    (archReports_strictly_ascending rtRotated mixedFS "/m" mixedReportRotated rfl).1,
    (archReports_strictly_ascending rtRotated mixedFS "/m" mixedReportRotated rfl).2.1,
    (archReports_strictly_ascending rtRotated mixedFS "/m" mixedReportRotated rfl).2.2.1,
    rfl,
    (archReports_strictly_ascending rtFirstSeen (withWalk mixedFS staticOnlyWalk) "/m"
      staticOnlyReport rfl).1,
    by decide⟩

/-- Claim C6: after a successful scan, in the report of architecture A each
library L has at most one entry; the entry's executable list is, in traversal
order, the path of every accepted file of architecture A once per occurrence of
L in that file's imported-library list, it is never empty and its length is the
number of recorded references; L has an entry exactly when that list is not
empty; and an architecture without report has no recorded reference. -/
theorem libraryUsage_exact (rt : Runtime) (fs : FileSystem) (dir : String)
    (r : Report) (h : scanDirectory rt fs dir = .ok r) :
    (∀ ar ∈ r.ArchReports,
      (ar.Libraries.map fun lu => lu.Library).Nodup ∧
      (∀ lu ∈ ar.Libraries,
        lu.Executables = recordedExecs fs (fs.walk dir) ar.Architecture lu.Library ∧
        lu.Executables ≠ [] ∧
        lu.Executables.length = ((records fs (fs.walk dir)).filter fun rec =>
          decide (rec.1 = ar.Architecture ∧ rec.2.1 = lu.Library)).length) ∧
      (∀ lib, recordedExecs fs (fs.walk dir) ar.Architecture lib ≠ [] ↔
        ∃ lu ∈ ar.Libraries, lu.Library = lib)) ∧
    (∀ arch, arch ∉ (r.ArchReports.map fun ar => ar.Architecture) →
      ∀ lib, recordedExecs fs (fs.walk dir) arch lib = []) := by
  obtain ⟨-, rfl⟩ := scanDirectory_ok rt fs dir r h
  obtain ⟨hwf, hkeys, hexecs⟩ := final_state fs (fs.walk dir)
  have hperm := labels_buildArchReports rt ((fs.walk dir).foldl (absorb fs) [])
  refine ⟨fun ar har => ?_, fun arch harch lib => ?_⟩
  · have hl := ((mem_buildArchReports rt _ hwf.1 ar).1 har).2
    obtain ⟨hnd, hiff⟩ := hwf.2 ar.Architecture
    have hmem := mem_buildLibraries rt ar.Architecture _ hnd
    rw [← hl] at hmem
    refine ⟨?_, fun lu hlu => ?_, fun lib => ?_⟩
    · rw [hl]
      exact (names_buildLibraries rt ar.Architecture _).nodup_iff.2 hnd
    · obtain ⟨hk, he⟩ := (hmem lu).1 hlu
      have heq : lu.Executables = recordedExecs fs (fs.walk dir) ar.Architecture lu.Library := by
        rw [he, ← hexecs]; rfl
      refine ⟨heq, ?_, ?_⟩
      · rw [he]; exact (hiff lu.Library).1 hk
      · rw [heq, recordedExecs, List.length_map]
    · rw [← hexecs, ← hiff lib]
      constructor
      · intro hk
        exact ⟨⟨lib, mapIndex (mapIndex ((fs.walk dir).foldl (absorb fs) []) ar.Architecture) lib⟩,
          (hmem _).2 ⟨hk, rfl⟩, rfl⟩
      · rintro ⟨lu, hlu, rfl⟩
        exact ((hmem lu).1 hlu).1
  · by_contra hne
    obtain ⟨e, he, libs, ha, -⟩ := (recordedExecs_ne_nil fs (fs.walk dir) arch lib).1 hne
    apply harch
    rw [hperm.mem_iff, hkeys, mem_observedArchs]
    exact ⟨e, he, libs, ha⟩

theorem libraryUsage_exact_witness :
    scanDirectory rtRotated tieFS "/d" = .ok tieReportRotated ∧
      ∀ arch, arch ∉ (tieReportRotated.ArchReports.map fun ar => ar.Architecture) →
        ∀ lib, recordedExecs tieFS (tieFS.walk "/d") arch lib = [] :=
  ⟨rfl, (libraryUsage_exact rtRotated tieFS "/d" tieReportRotated rfl).2⟩

/-! ## Errors -/

theorem accepted_eq_none_of_rejected (fs : FileSystem) (e : WalkEntry)
    (h : isELF fs e.path = false ∨ (∃ err, fs.elfOpen e.path = .error err) ∨
      (getArchitecture fs e.path).2 ≠ none ∨
      ∃ file err, fs.elfOpen e.path = .ok file ∧ file.ImportedLibraries = .error err) :
    accepted fs e = none := by
  unfold accepted
  split_ifs with hc
  · rcases h with h | ⟨err, h⟩ | h | ⟨file, err, h, hl⟩
    · rw [hc.2.2] at h; cases h
    · rcases hA : getArchitecture fs e.path with ⟨arch, _ | aerr⟩ <;> simp [h]
    · rcases hA : getArchitecture fs e.path with ⟨arch, _ | aerr⟩
      · rw [hA] at h; exact absurd rfl h
      · rfl
    · rcases hA : getArchitecture fs e.path with ⟨arch, _ | aerr⟩ <;> simp [h, hl]
  · rfl

theorem scanDirectory_withWalk (rt : Runtime) (fs : FileSystem) (entries : List WalkEntry)
    (dir : String) :
    scanDirectory rt (withWalk fs entries) dir =
      match entries.findSome? fun e => e.err with
      | some err => .error err
      | none => .ok ⟨dir, buildArchReports rt (entries.foldl (absorb fs) [])⟩ :=
  scanDirectory_eq rt (withWalk fs entries) dir

/-- Claim C9: `scanDirectory` fails exactly when the walk reports an error for
some entry, and it then returns the first such error and no report. A regular
file that fails the magic check, whose ELF header cannot be parsed, whose
architecture is unsupported or whose dependency list cannot be extracted makes
the callback return nil with the aggregation state unchanged, and the scan gives
the same result as if the file were not there. -/
theorem scan_fails_iff_walk_error (rt : Runtime) (fs : FileSystem) (dir : String) :
    ((∃ err, scanDirectory rt fs dir = .error err) ↔ ∃ e ∈ fs.walk dir, e.err ≠ none) ∧
    ((∃ r, scanDirectory rt fs dir = .ok r) ↔ ∀ e ∈ fs.walk dir, e.err = none) ∧
    (∀ err, scanDirectory rt fs dir = .error err ↔
      ((fs.walk dir).findSome? fun e => e.err) = some err) ∧
    (∀ e : WalkEntry, e.err = none → e.info.IsDir = false →
      (isELF fs e.path = false ∨ (∃ err, fs.elfOpen e.path = .error err) ∨
        (getArchitecture fs e.path).2 ≠ none ∨
        ∃ file err, fs.elfOpen e.path = .ok file ∧ file.ImportedLibraries = .error err) →
      (∀ m, walkFn fs m e.path e.info e.err = (m, none)) ∧
      ∀ pre post, scanDirectory rt (withWalk fs (pre ++ e :: post)) dir =
        scanDirectory rt (withWalk fs (pre ++ post)) dir) := by
  have hscan := scanDirectory_eq rt fs dir
  refine ⟨?_, ?_, ?_, ?_⟩
  · cases hf : (fs.walk dir).findSome? fun e => e.err with
    | none =>
      rw [hf] at hscan
      have hall := (findSome?_err_eq_none _).1 hf
      constructor
      · rintro ⟨err, herr⟩; rw [hscan] at herr; cases herr
      · rintro ⟨e, he, hne⟩; exact absurd (hall e he) hne
    | some err =>
      rw [hf] at hscan
      constructor
      · intro _
        by_contra hno
        push_neg at hno
        rw [(findSome?_err_eq_none _).2 hno] at hf
        cases hf
      · intro _; exact ⟨err, hscan⟩
  · cases hf : (fs.walk dir).findSome? fun e => e.err with
    | none =>
      rw [hf] at hscan
      exact ⟨fun _ => (findSome?_err_eq_none _).1 hf, fun _ => ⟨_, hscan⟩⟩
    | some err =>
      rw [hf] at hscan
      constructor
      · rintro ⟨r, hr⟩; rw [hscan] at hr; cases hr
      · intro hall
        rw [(findSome?_err_eq_none _).2 hall] at hf
        cases hf
  · intro err
    cases hf : (fs.walk dir).findSome? fun e => e.err with
    | none => rw [hf] at hscan; rw [hscan]; simp
    | some err' => rw [hf] at hscan; rw [hscan]; simp
  · intro e herr _ hrej
    have hacc := accepted_eq_none_of_rejected fs e hrej
    have habs : ∀ m, absorb fs m e = m := fun m => by simp [absorb, hacc]
    refine ⟨fun m => ?_, fun pre post => ?_⟩
    · rw [walkFn_of_no_err fs m e herr, habs]
    · rw [scanDirectory_withWalk, scanDirectory_withWalk]
      simp only [List.findSome?_append, List.findSome?_cons, herr, List.foldl_append,
        List.foldl_cons, habs]

theorem scan_fails_iff_walk_error_witness :
    scanDirectory rtFirstSeen mixedFS "/m" = .ok mixedReport ∧
      ∀ e ∈ mixedFS.walk "/m", e.err = none :=
  ⟨rfl, (scan_fails_iff_walk_error rtFirstSeen mixedFS "/m").2.1.1 ⟨mixedReport, rfl⟩⟩

/-! ## Uniqueness of sorted reports -/

theorem buildArchReports_strict (rt : Runtime) (m : ArchMap) (hnd : (m.map Prod.fst).Nodup) :
    (buildArchReports rt m).Pairwise (fun a b => a.Architecture < b.Architecture) := by
  have hnodup : ((buildArchReports rt m).map fun ar => ar.Architecture).Nodup :=
    (labels_buildArchReports rt m).nodup_iff.2 hnd
  have hne := List.pairwise_map.1 hnodup
  refine ((buildArchReports_sorted rt m).and hne).imp ?_
  intro a b hab
  exact lt_of_le_of_ne hab.1 hab.2

theorem eq_of_perm_of_strict (l₁ l₂ : List ArchitectureReport) (hp : l₁.Perm l₂)
    (h₁ : l₁.Pairwise (fun a b => a.Architecture < b.Architecture))
    (h₂ : l₂.Pairwise (fun a b => a.Architecture < b.Architecture)) : l₁ = l₂ := by
  haveI : IsAntisymm ArchitectureReport (fun a b => a.Architecture < b.Architecture) :=
    ⟨fun a b hab hba => absurd hba (lt_asymm hab)⟩
  exact List.eq_of_perm_of_sorted hp h₁ h₂

theorem nodup_of_strict (l : List ArchitectureReport)
    (h : l.Pairwise (fun a b => a.Architecture < b.Architecture)) : l.Nodup := by
  refine h.imp ?_
  intro a b hab heq
  rw [heq] at hab
  exact lt_irrefl _ hab

theorem eq_of_perm_of_map_eq {α β : Type} (f : α → β) (l₁ l₂ : List α) (hp : l₁.Perm l₂)
    (hm : l₁.map f = l₂.map f) (hnd : (l₁.map f).Nodup) : l₁ = l₂ := by
  induction l₁ generalizing l₂ with
  | nil => exact (List.perm_nil.1 hp.symm).symm
  | cons x t ih =>
    cases l₂ with
    | nil => exact absurd hp.length_eq (by simp)
    | cons y t' =>
      simp only [List.map_cons, List.cons.injEq] at hm
      simp only [List.map_cons, List.nodup_cons] at hnd
      have hxy : x = y := by
        have hx : x ∈ y :: t' := hp.subset (List.mem_cons_self _ _)
        rcases List.mem_cons.1 hx with h | h
        · exact h
        · have : f x ∈ t.map f := by
            rw [hm.2]; exact List.mem_map_of_mem f h
          exact absurd this hnd.1
      subst hxy
      rw [ih t' (List.Perm.cons_inv hp) hm.2 hnd.2]

theorem counts_buildLibraries (rt₁ rt₂ : Runtime) (arch₁ arch₂ : String) (lm : LibMap) :
    ((buildLibraries rt₁ arch₁ lm).map fun lu => lu.Executables.length) =
      (buildLibraries rt₂ arch₂ lm).map fun lu => lu.Executables.length := by
  have hp : ((buildLibraries rt₁ arch₁ lm).map fun lu => lu.Executables.length).Perm
      ((buildLibraries rt₂ arch₂ lm).map fun lu => lu.Executables.length) :=
    ((buildLibraries_perm rt₁ arch₁ lm).trans (buildLibraries_perm rt₂ arch₂ lm).symm).map _
  have h₁ := List.pairwise_map.2 (buildLibraries_sorted rt₁ arch₁ lm)
  have h₂ := List.pairwise_map.2 (buildLibraries_sorted rt₂ arch₂ lm)
  exact List.eq_of_perm_of_sorted hp h₁ h₂

theorem buildArchReports_eq_map (rt : Runtime) (m : ArchMap) (hnd : (m.map Prod.fst).Nodup) :
    buildArchReports rt m =
      ((buildArchReports rt m).map fun ar => ar.Architecture).map
        fun arch => ⟨arch, buildLibraries rt arch (mapIndex m arch)⟩ := by
  rw [List.map_map]
  conv_lhs => rw [← List.map_id (buildArchReports rt m)]
  apply List.map_congr_left
  intro ar har
  have hl := ((mem_buildArchReports rt m hnd ar).1 har).2
  obtain ⟨A, libs⟩ := ar
  simp only at hl
  simp [hl]

theorem labels_eq (rt₁ rt₂ : Runtime) (m : ArchMap) (hnd : (m.map Prod.fst).Nodup) :
    ((buildArchReports rt₁ m).map fun ar => ar.Architecture) =
      (buildArchReports rt₂ m).map fun ar => ar.Architecture := by
  have hp := (labels_buildArchReports rt₁ m).trans (labels_buildArchReports rt₂ m).symm
  have h₁ : ((buildArchReports rt₁ m).map fun ar => ar.Architecture).Pairwise (· < ·) :=
    List.pairwise_map.2 (buildArchReports_strict rt₁ m hnd)
  have h₂ : ((buildArchReports rt₂ m).map fun ar => ar.Architecture).Pairwise (· < ·) :=
    List.pairwise_map.2 (buildArchReports_strict rt₂ m hnd)
  exact List.eq_of_perm_of_sorted hp h₁ h₂

theorem buildArchReports_sameUpToTies (rt₁ rt₂ : Runtime) (m : ArchMap)
    (hnd : (m.map Prod.fst).Nodup) :
    List.Forall₂ sameUpToTies (buildArchReports rt₁ m) (buildArchReports rt₂ m) := by
  rw [buildArchReports_eq_map rt₁ _ hnd, buildArchReports_eq_map rt₂ _ hnd,
    labels_eq rt₁ rt₂ _ hnd, List.forall₂_map_left_iff, List.forall₂_map_right_iff,
    List.forall₂_same]
  intro arch _
  exact ⟨rfl, (buildLibraries_perm rt₁ arch _).trans (buildLibraries_perm rt₂ arch _).symm,
    counts_buildLibraries rt₁ rt₂ arch arch _⟩

theorem forall₂_eq_of_imp {α : Type} (R : α → α → Prop) (l₁ l₂ : List α)
    (h : List.Forall₂ R l₁ l₂) (himp : ∀ a ∈ l₁, ∀ b, R a b → a = b) : l₁ = l₂ := by
  induction h with
  | nil => rfl
  | cons hab _ ih =>
    rw [himp _ (List.mem_cons_self _ _) _ hab,
      ih fun a ha b hR => himp a (List.mem_cons_of_mem _ ha) b hR]

/-! ## Dependence on the runtime -/

/-- Claim C4 (as amended): within each architecture report a library with
strictly more executables stands before every library with fewer, and nothing
fixes the relative order of two libraries with the same number of executables:
it follows the map iteration order and `sort.Slice`, not the order of first
recording. For L1 (3 executables), L2 (5) and L3 (3, recorded before L1) the
result is L2, L3, L1 or L2, L1, L3, and each of the two occurs for some
admissible runtime behaviour. -/
theorem tie_order_follows_runtime :
    (∀ (rt : Runtime) (fs : FileSystem) (dir : String) (r : Report),
      scanDirectory rt fs dir = .ok r → ∀ ar ∈ r.ArchReports,
        ∀ (i j : Nat) (hi : i < ar.Libraries.length) (hj : j < ar.Libraries.length),
          (ar.Libraries.get ⟨i, hi⟩).Executables.length >
            (ar.Libraries.get ⟨j, hj⟩).Executables.length → i < j) ∧
    (∀ (rt : Runtime) (r : Report), scanDirectory rt tieFS "/d" = .ok r →
      r = tieReportFirstSeen ∨ r = tieReportRotated) ∧
    scanDirectory rtFirstSeen tieFS "/d" = .ok tieReportFirstSeen ∧
    scanDirectory rtRotated tieFS "/d" = .ok tieReportRotated := by
  refine ⟨?_, ?_, rfl, rfl⟩
  · intro rt fs dir r h ar har i j hi hj hgt
    obtain ⟨-, rfl⟩ := scanDirectory_ok rt fs dir r h
    have hwf := (final_state fs (fs.walk dir)).1
    have hl := ((mem_buildArchReports rt _ hwf.1 ar).1 har).2
    have hs := buildLibraries_sorted rt ar.Architecture
      (mapIndex ((fs.walk dir).foldl (absorb fs) []) ar.Architecture)
    rw [← hl] at hs
    by_contra hij
    rcases Nat.lt_or_ge j i with hlt | hge
    · have := (List.pairwise_iff_get.1 hs) ⟨j, hj⟩ ⟨i, hi⟩ hlt
      omega
    · have hji : j = i := by omega
      subst hji
      omega
  · intro rt r h
    obtain ⟨-, rfl⟩ := scanDirectory_ok rt tieFS "/d" r h
    have hm : (tieFS.walk "/d").foldl (absorb tieFS) [] =
        [("x86-64", [("L3", ["/d/a", "/d/b", "/d/c"]),
          ("L2", ["/d/a", "/d/b", "/d/c", "/d/d", "/d/e"]),
          ("L1", ["/d/b", "/d/c", "/d/d"])])] := by rfl
    rw [hm]
    have hA := buildArchReports_perm rt
      [("x86-64", [("L3", ["/d/a", "/d/b", "/d/c"]),
        ("L2", ["/d/a", "/d/b", "/d/c", "/d/d", "/d/e"]),
        ("L1", ["/d/b", "/d/c", "/d/d"])])]
    simp only [List.map_cons, List.map_nil] at hA
    rw [List.perm_singleton.1 hA]
    have hp := buildLibraries_perm rt "x86-64"
      [("L3", ["/d/a", "/d/b", "/d/c"]),
        ("L2", ["/d/a", "/d/b", "/d/c", "/d/d", "/d/e"]),
        ("L1", ["/d/b", "/d/c", "/d/d"])]
    have hs := buildLibraries_sorted rt "x86-64"
      [("L3", ["/d/a", "/d/b", "/d/c"]),
        ("L2", ["/d/a", "/d/b", "/d/c", "/d/d", "/d/e"]),
        ("L1", ["/d/b", "/d/c", "/d/d"])]
    generalize buildLibraries rt "x86-64"
      [("L3", ["/d/a", "/d/b", "/d/c"]),
        ("L2", ["/d/a", "/d/b", "/d/c", "/d/d", "/d/e"]),
        ("L1", ["/d/b", "/d/c", "/d/d"])] = libs at hp hs
    simp only [List.map_cons, List.map_nil] at hp
    have hlen := hp.length_eq
    match libs, hlen with
    | [p, q, s], _ =>
      have hnd : [p, q, s].Nodup := hp.nodup_iff.2 (by decide)
      have hpm := hp.subset (List.mem_cons_self p [q, s])
      have hqm := hp.subset (List.mem_cons_of_mem p (List.mem_cons_self q [s]))
      have hsm := hp.subset
        (List.mem_cons_of_mem p (List.mem_cons_of_mem q (List.mem_cons_self s [])))
      simp only [List.mem_cons, List.mem_singleton, List.not_mem_nil, or_false] at hpm hqm hsm
      rcases hpm with rfl | rfl | rfl <;> rcases hqm with rfl | rfl | rfl <;>
        rcases hsm with rfl | rfl | rfl <;>
        first
          | exact absurd hnd (by decide)
          | exact absurd hs (by decide)
          | decide

theorem tie_order_follows_runtime_witness :
    scanDirectory rtRotated tieFS "/d" = .ok tieReportRotated ∧
      (tieReportRotated = tieReportFirstSeen ∨ tieReportRotated = tieReportRotated) :=
  ⟨rfl, tie_order_follows_runtime.2.1 rtRotated tieReportRotated rfl⟩

/-- Counterexample to claim C4 as stated: in `tieFS` library L3 is recorded
before L1 and both have 3 executables, yet an admissible runtime (maps visited
from the second pair, stable sort) yields the order L2, L1, L3. -/
theorem first_seen_order_not_kept :
    ((records tieFS (tieFS.walk "/d")).map fun rec => rec.2.1).indexOf "L3" <
      ((records tieFS (tieFS.walk "/d")).map fun rec => rec.2.1).indexOf "L1" ∧
    (recordedExecs tieFS (tieFS.walk "/d") "x86-64" "L1").length = 3 ∧
    (recordedExecs tieFS (tieFS.walk "/d") "x86-64" "L2").length = 5 ∧
    (recordedExecs tieFS (tieFS.walk "/d") "x86-64" "L3").length = 3 ∧
    scanDirectory rtRotated tieFS "/d" = .ok tieReportRotated ∧
    (tieReportRotated.ArchReports.map fun ar => ar.Libraries.map fun lu => lu.Library) =
      [["L2", "L1", "L3"]] := by
  refine ⟨by decide, by decide, by decide, by decide, rfl, by decide⟩

/-- Claim C8 (as amended): for a fixed file system two scans, whatever the map
iteration orders and the behaviour of `sort.Slice`, fail with the same error or
give reports with the same directory, the same architectures in the same order
and, per architecture, the same library entries with the same sequence of
executable counts; the reports can differ only in the relative order of
libraries with equal counts. When no architecture has two libraries with the
same count, the two reports and the texts written from them are identical. -/
theorem scan_deterministic_up_to_ties (rt₁ rt₂ : Runtime) (fs : FileSystem) (dir : String) :
    (∀ err, scanDirectory rt₁ fs dir = .error err ↔ scanDirectory rt₂ fs dir = .error err) ∧
    (∀ r₁ r₂, scanDirectory rt₁ fs dir = .ok r₁ → scanDirectory rt₂ fs dir = .ok r₂ →
      r₁.ScanDirectory = r₂.ScanDirectory ∧
      List.Forall₂ sameUpToTies r₁.ArchReports r₂.ArchReports ∧
      ((∀ ar ∈ r₁.ArchReports, (ar.Libraries.map fun lu => lu.Executables.length).Nodup) →
        r₁ = r₂ ∧ ∀ outputFile, generateReport fs r₁ outputFile =
          generateReport fs r₂ outputFile)) := by
  refine ⟨fun err => ?_, fun r₁ r₂ h₁ h₂ => ?_⟩
  · rw [scanDirectory_eq, scanDirectory_eq]
    cases (fs.walk dir).findSome? fun e => e.err with
    | none => simp
    | some err' => simp
  · obtain ⟨-, rfl⟩ := scanDirectory_ok rt₁ fs dir r₁ h₁
    obtain ⟨-, rfl⟩ := scanDirectory_ok rt₂ fs dir r₂ h₂
    have hwf := (final_state fs (fs.walk dir)).1
    have hrel := buildArchReports_sameUpToTies rt₁ rt₂ _ hwf.1
    refine ⟨rfl, hrel, fun hties => ?_⟩
    have heq : buildArchReports rt₁ ((fs.walk dir).foldl (absorb fs) []) =
        buildArchReports rt₂ ((fs.walk dir).foldl (absorb fs) []) := by
      refine forall₂_eq_of_imp _ _ _ hrel ?_
      intro a ha b hab
      obtain ⟨A, la⟩ := a
      obtain ⟨B, lb⟩ := b
      simp only [sameUpToTies] at hab
      obtain ⟨rfl, hp, hc⟩ := hab
      rw [eq_of_perm_of_map_eq _ la lb hp hc (hties _ ha)]
    simp only at hties ⊢
    rw [heq]
    exact ⟨rfl, fun _ => rfl⟩

theorem scan_deterministic_up_to_ties_witness :
    scanDirectory rtFirstSeen tieFS "/d" = .ok tieReportFirstSeen ∧
      scanDirectory rtRotated tieFS "/d" = .ok tieReportRotated ∧
      List.Forall₂ sameUpToTies tieReportFirstSeen.ArchReports tieReportRotated.ArchReports :=
  ⟨rfl, rfl,
    ((scan_deterministic_up_to_ties rtFirstSeen rtRotated tieFS "/d").2
      tieReportFirstSeen tieReportRotated rfl rfl).2.1⟩

set_option maxRecDepth 20000 in
/-- Counterexample to claim C8 as stated: the same directory tree scanned under
two admissible runtime behaviours gives two different reports and two different
report texts. -/
theorem scan_depends_on_runtime :
    scanDirectory rtFirstSeen tieFS "/d" = .ok tieReportFirstSeen ∧
    scanDirectory rtRotated tieFS "/d" = .ok tieReportRotated ∧
    tieReportFirstSeen ≠ tieReportRotated ∧
    generateReport tieFS tieReportFirstSeen "report.txt" = .ok tieTextFirstSeen ∧
    generateReport tieFS tieReportRotated "report.txt" = .ok tieTextRotated ∧
    tieTextFirstSeen ≠ tieTextRotated := by
  refine ⟨rfl, rfl, by decide, rfl, rfl, by decide⟩

/-! ## Statically linked files -/

theorem mapIndex_absorb_congr (fs : FileSystem) (a b : ArchMap) (e : WalkEntry)
    (h : ∀ arch, mapIndex a arch = mapIndex b arch) (arch : String) :
    mapIndex (absorb fs a e) arch = mapIndex (absorb fs b e) arch := by
  unfold absorb
  cases accepted fs e with
  | none => exact h arch
  | some p => simp only [mapIndex_aggregate, h]

theorem mapIndex_foldl_absorb_congr (fs : FileSystem) (entries : List WalkEntry)
    (a b : ArchMap) (h : ∀ arch, mapIndex a arch = mapIndex b arch) (arch : String) :
    mapIndex (entries.foldl (absorb fs) a) arch = mapIndex (entries.foldl (absorb fs) b) arch := by
  induction entries generalizing a b with
  | nil => exact h arch
  | cons e es ih =>
    simp only [List.foldl_cons]
    exact ih _ _ (mapIndex_absorb_congr fs a b e h)

theorem buildLibraries_nil (rt : Runtime) (arch : String) : buildLibraries rt arch [] = [] :=
  List.perm_nil.1 (buildLibraries_perm rt arch [])

theorem accepted_of_static (fs : FileSystem) (e : WalkEntry) (arch : String) (file : ElfFile)
    (herr : e.err = none) (hdir : e.info.IsDir = false) (hmagic : isELF fs e.path = true)
    (harch : getArchitecture fs e.path = (arch, none)) (hopen : fs.elfOpen e.path = .ok file)
    (hlibs : file.ImportedLibraries = .ok []) : accepted fs e = some (arch, []) := by
  simp [accepted, herr, hdir, hmagic, harch, hopen, hlibs]

theorem absorb_static (fs : FileSystem) (e : WalkEntry) (arch : String)
    (hacc : accepted fs e = some (arch, [])) (m : ArchMap) :
    (∀ a, mapIndex (absorb fs m e) a = mapIndex m a) ∧
      ∀ a, a ∈ (absorb fs m e).map Prod.fst ↔ a ∈ m.map Prod.fst ∨ a = arch := by
  have habs : absorb fs m e = aggregate m arch [] e.path := by simp [absorb, hacc]
  refine ⟨fun a => ?_, fun a => ?_⟩
  · rw [habs, mapIndex_aggregate]
    by_cases h : arch = a
    · subst h; simp [aggregateLibs]
    · simp [h]
  · rw [habs, keys_aggregate]
    split_ifs with hk
    · constructor
      · exact Or.inl
      · rintro (h | rfl)
        · exact h
        · exact hk
    · simp

/-- The architecture reports built from a walk with a statically linked file
and from the walk without it, under one runtime behaviour. -/
theorem buildArchReports_static (rt : Runtime) (fs : FileSystem) (e : WalkEntry) (arch : String)
    (hacc : accepted fs e = some (arch, [])) (pre post : List WalkEntry) :
    buildArchReports rt ((pre ++ e :: post).foldl (absorb fs) []) =
        buildArchReports rt ((pre ++ post).foldl (absorb fs) []) ∨
      (⟨arch, []⟩ ∈ buildArchReports rt ((pre ++ e :: post).foldl (absorb fs) []) ∧
        buildArchReports rt ((pre ++ post).foldl (absorb fs) []) =
          (buildArchReports rt ((pre ++ e :: post).foldl (absorb fs) [])).filter
            fun ar => decide (ar.Architecture ≠ arch)) := by
  have hwf₁ := WF_foldl_absorb fs (pre ++ e :: post) [] WF_nil
  have hwf₂ := WF_foldl_absorb fs (pre ++ post) [] WF_nil
  have hk₁ := mem_keys_foldl_absorb fs (pre ++ e :: post) []
  have hk₂ := mem_keys_foldl_absorb fs (pre ++ post) []
  have hix : ∀ a, mapIndex ((pre ++ e :: post).foldl (absorb fs) []) a =
      mapIndex ((pre ++ post).foldl (absorb fs) []) a := by
    intro a
    simp only [List.foldl_append, List.foldl_cons]
    exact mapIndex_foldl_absorb_congr fs post _ _ (absorb_static fs e arch hacc _).1 a
  have hkk : ∀ a, a ∈ ((pre ++ e :: post).foldl (absorb fs) []).map Prod.fst ↔
      a ∈ ((pre ++ post).foldl (absorb fs) []).map Prod.fst ∨ a = arch := by
    intro a
    rw [hk₁, hk₂]
    simp only [observedArchs, List.filterMap_append, List.filterMap_cons, hacc,
      Option.map_some', List.mem_append, List.mem_cons, List.map_nil, List.not_mem_nil,
      false_or]
    tauto
  generalize (pre ++ e :: post).foldl (absorb fs) [] = m₁ at hwf₁ hix hkk
  generalize (pre ++ post).foldl (absorb fs) [] = m₂ at hwf₂ hix hkk
  have hs₁ := buildArchReports_strict rt m₁ hwf₁.1
  have hs₂ := buildArchReports_strict rt m₂ hwf₂.1
  have hmem₁ := mem_buildArchReports rt m₁ hwf₁.1
  have hmem₂ := mem_buildArchReports rt m₂ hwf₂.1
  by_cases hin : arch ∈ m₂.map Prod.fst
  · left
    apply eq_of_perm_of_strict _ _ _ hs₁ hs₂
    rw [List.perm_ext_iff_of_nodup (nodup_of_strict _ hs₁) (nodup_of_strict _ hs₂)]
    intro ar
    rw [hmem₁, hmem₂, hkk, hix]
    constructor
    · rintro ⟨h | h, hl⟩
      · exact ⟨h, hl⟩
      · exact ⟨h ▸ hin, hl⟩
    · rintro ⟨h, hl⟩
      exact ⟨Or.inl h, hl⟩
  · right
    have hnil : mapIndex m₁ arch = [] := by
      rw [hix]; exact mapIndex_of_not_mem m₂ arch hin
    refine ⟨(hmem₁ ⟨arch, []⟩).2 ⟨(hkk arch).2 (Or.inr rfl), ?_⟩, ?_⟩
    · simp only [hnil, buildLibraries_nil]
    · symm
      apply eq_of_perm_of_strict _ _ _ (hs₁.sublist (List.filter_sublist _)) hs₂
      rw [List.perm_ext_iff_of_nodup
        ((nodup_of_strict _ hs₁).sublist (List.filter_sublist _)) (nodup_of_strict _ hs₂)]
      intro ar
      rw [List.mem_filter, hmem₁, hmem₂, hkk, hix]
      simp only [decide_eq_true_eq]
      constructor
      · rintro ⟨⟨h | h, hl⟩, hne⟩
        · exact ⟨h, hl⟩
        · exact absurd h hne
      · rintro ⟨h, hl⟩
        exact ⟨⟨Or.inl h, hl⟩, fun heq => hin (heq ▸ h)⟩

/-- Claim C10 (as amended): a statically linked ELF file of a supported
architecture (it passes the magic check, is classified, and its imported-library
list is empty) adds no library entry: handling it returns nil, leaves the
library map of every architecture as it was, and at most adds its architecture
as a key. A scan of the walk with the file and a scan of the walk without it
succeed together, and their reports differ at most by one architecture report
without libraries for the file's architecture and by the relative order of
libraries with equal numbers of executables, which each scan draws anew; when
both scans meet the same runtime behaviour only the first difference remains. -/
theorem static_file_frame (rt : Runtime) (fs : FileSystem) (dir : String) (e : WalkEntry)
    (arch : String) (file : ElfFile)
    (herr : e.err = none) (hdir : e.info.IsDir = false) (hmagic : isELF fs e.path = true)
    (harch : getArchitecture fs e.path = (arch, none)) (hopen : fs.elfOpen e.path = .ok file)
    (hlibs : file.ImportedLibraries = .ok []) :
    (∀ m : ArchMap,
      (walkFn fs m e.path e.info e.err).2 = none ∧
      (∀ a, mapIndex (walkFn fs m e.path e.info e.err).1 a = mapIndex m a) ∧
      (∀ a, a ∈ (walkFn fs m e.path e.info e.err).1.map Prod.fst ↔
        a ∈ m.map Prod.fst ∨ a = arch)) ∧
    (∀ (rt' : Runtime) (pre post : List WalkEntry),
      ((∃ r₁, scanDirectory rt (withWalk fs (pre ++ e :: post)) dir = .ok r₁) ↔
        ∃ r₂, scanDirectory rt' (withWalk fs (pre ++ post)) dir = .ok r₂) ∧
      (∀ r₁ r₂, scanDirectory rt (withWalk fs (pre ++ e :: post)) dir = .ok r₁ →
        scanDirectory rt (withWalk fs (pre ++ post)) dir = .ok r₂ →
        r₁.ScanDirectory = r₂.ScanDirectory ∧
        (r₁.ArchReports = r₂.ArchReports ∨
          (⟨arch, []⟩ ∈ r₁.ArchReports ∧
            r₂.ArchReports = r₁.ArchReports.filter fun ar => decide (ar.Architecture ≠ arch)))) ∧
      ∀ r₁ r₂, scanDirectory rt (withWalk fs (pre ++ e :: post)) dir = .ok r₁ →
        scanDirectory rt' (withWalk fs (pre ++ post)) dir = .ok r₂ →
        r₁.ScanDirectory = r₂.ScanDirectory ∧
        (List.Forall₂ sameUpToTies r₁.ArchReports r₂.ArchReports ∨
          (⟨arch, []⟩ ∈ r₁.ArchReports ∧
            List.Forall₂ sameUpToTies
              (r₁.ArchReports.filter fun ar => decide (ar.Architecture ≠ arch))
              r₂.ArchReports))) := by
  have hacc := accepted_of_static fs e arch file herr hdir hmagic harch hopen hlibs
  have hscan : ∀ (rt₀ : Runtime) (entries : List WalkEntry) (r : Report),
      scanDirectory rt₀ (withWalk fs entries) dir = .ok r →
        r = ⟨dir, buildArchReports rt₀ (entries.foldl (absorb fs) [])⟩ := by
    intro rt₀ entries r h
    rw [scanDirectory_withWalk] at h
    cases hf : entries.findSome? fun e => e.err with
    | some err => rw [hf] at h; cases h
    | none =>
      rw [hf] at h
      simp only [Except.ok.injEq] at h
      exact h.symm
  refine ⟨fun m => ?_, fun rt' pre post => ⟨?_, fun r₁ r₂ h₁ h₂ => ?_, fun r₁ r₂ h₁ h₂ => ?_⟩⟩
  · rw [walkFn_of_no_err fs m e herr]
    exact ⟨rfl, (absorb_static fs e arch hacc m).1, (absorb_static fs e arch hacc m).2⟩
  · rw [scanDirectory_withWalk, scanDirectory_withWalk]
    simp only [List.findSome?_append, List.findSome?_cons, herr]
    cases (pre.findSome? fun e => e.err).or (post.findSome? fun e => e.err) with
    | none => simp
    | some err => simp
  · rw [hscan rt _ r₁ h₁, hscan rt _ r₂ h₂]
    exact ⟨rfl, buildArchReports_static rt fs e arch hacc pre post⟩
  · rw [hscan rt _ r₁ h₁, hscan rt' _ r₂ h₂]
    refine ⟨rfl, ?_⟩
    simp only
    have hrel := buildArchReports_sameUpToTies rt rt' _
      (WF_foldl_absorb fs (pre ++ post) [] WF_nil).1
    rcases buildArchReports_static rt fs e arch hacc pre post with heq | ⟨hmem, heq⟩
    · left
      rw [heq]
      exact hrel
    · right
      refine ⟨hmem, ?_⟩
      rw [← heq]
      exact hrel

theorem static_file_frame_witness :
    tieStaticEntry.err = none ∧ tieStaticEntry.info.IsDir = false ∧
      isELF tieStaticFS tieStaticEntry.path = true ∧
      getArchitecture tieStaticFS tieStaticEntry.path = ("x86-64", none) ∧
      tieStaticFS.elfOpen tieStaticEntry.path = .ok ⟨EM_X86_64, .ok []⟩ ∧
      (⟨EM_X86_64, .ok []⟩ : ElfFile).ImportedLibraries = .ok [] ∧
      scanDirectory rtFirstSeen (withWalk tieStaticFS (tieFS.walk "/d" ++ tieStaticEntry :: []))
        "/d" = .ok tieReportFirstSeen ∧
      scanDirectory rtRotated (withWalk tieStaticFS (tieFS.walk "/d" ++ [])) "/d" =
        .ok tieReportRotated ∧
      tieReportFirstSeen.ScanDirectory = tieReportRotated.ScanDirectory ∧
      (List.Forall₂ sameUpToTies tieReportFirstSeen.ArchReports tieReportRotated.ArchReports ∨
        (⟨"x86-64", []⟩ ∈ tieReportFirstSeen.ArchReports ∧
          List.Forall₂ sameUpToTies
            (tieReportFirstSeen.ArchReports.filter fun ar => decide (ar.Architecture ≠ "x86-64"))
            tieReportRotated.ArchReports)) :=
  ⟨rfl, rfl, rfl, rfl, rfl, rfl, rfl, rfl,
    ((static_file_frame rtFirstSeen tieStaticFS "/d" tieStaticEntry "x86-64"
      ⟨EM_X86_64, .ok []⟩ rfl rfl rfl rfl rfl rfl).2 rtRotated (tieFS.walk "/d") []).2.2
      tieReportFirstSeen tieReportRotated rfl rfl⟩

/-- Counterexample to claim C10 as stated: the directory of `tieFS` is scanned
once with the statically linked x86-64 executable `/d/s` and once without it.
The first scan meets maps visited in insertion order, the second maps visited
from the second pair. The two reports have the same single architecture, and
yet they differ: L3 and L1 are exchanged. The difference is not the presence of
an architecture report without libraries. -/
theorem static_file_reorders_ties :
    accepted tieStaticFS tieStaticEntry = some ("x86-64", []) ∧
    scanDirectory rtFirstSeen tieStaticFS "/d" = .ok tieReportFirstSeen ∧
    scanDirectory rtRotated (withWalk tieStaticFS (tieFS.walk "/d")) "/d" =
      .ok tieReportRotated ∧
    tieReportFirstSeen.ArchReports ≠ tieReportRotated.ArchReports ∧
    (⟨"x86-64", []⟩ : ArchitectureReport) ∉ tieReportFirstSeen.ArchReports ∧
    tieReportRotated.ArchReports ≠
      tieReportFirstSeen.ArchReports.filter fun ar => decide (ar.Architecture ≠ "x86-64") := by
  refine ⟨rfl, rfl, rfl, by decide, by decide, by decide⟩

end Bldd
